import Mathlib

/-!
Shallow embedding of the klingt audio engine core: the graph wrapper
(src/graph.rs), the engine (src/klingt.rs), the ring-buffer sink
(src/nodes/sink/rtrb_sink.rs), the resampling source
(src/nodes/source/resampling_source.rs) and the mixer
(src/nodes/effect/mixer.rs).  Audio samples and rate arithmetic are
modeled over the rationals; machine indices are naturals.
-/

namespace KlingtModel

/-- Consumer side of an rtrb SPSC ring buffer (the `rtrb` crate), as held by
`ResamplingSource`.  `data` is the stream of samples the producer has pushed,
indexed from 0; `readIdx` and `writeIdx` are the ring indices.  A pop succeeds
exactly when `readIdx < writeIdx`, i.e. when the queue is non-empty. -/
@[ext]
structure RingConsumer where
  data : ℕ → ℚ
  readIdx : ℕ
  writeIdx : ℕ

/-- rtrb `Consumer::pop`: returns the oldest queued sample when non-empty,
leaving the state unchanged on failure. -/
def RingConsumer.pop (c : RingConsumer) : Option ℚ × RingConsumer :=
  if c.readIdx < c.writeIdx then
    (some (c.data c.readIdx), { c with readIdx := c.readIdx + 1 })
  else
    (none, c)

/-- Producer side of an rtrb SPSC ring buffer, as held by `RtrbSink`:
a fixed capacity plus the currently queued samples (oldest first). -/
structure RingProducer where
  cap : ℕ
  queue : List ℚ
deriving DecidableEq

/-- rtrb `Producer::slots`: number of free slots. -/
def RingProducer.slots (p : RingProducer) : ℕ := p.cap - p.queue.length

/-- rtrb `Producer::push`: appends the sample when there is room; on a full
queue the push fails (Err) and the state is unchanged. -/
def RingProducer.push (p : RingProducer) (v : ℚ) : RingProducer :=
  if p.queue.length < p.cap then { p with queue := p.queue ++ [v] } else p

/-- `ProcessContext` from src/node.rs: sample rate and block size of the
owning graph (the block size is 64 in `AudioGraph::new`). -/
structure ProcessContext where
  sampleRate : ℕ
  bufferSize : ℕ

/-! ### ResamplingSource (src/nodes/source/resampling_source.rs) -/

/-- State of `ResamplingSource`.  The two 16-slot interpolation arrays
`prev_samples` and `curr_samples` are modeled as total functions on ℕ that are
zero outside the touched range, matching their `[0.0; 16]` initialisation. -/
@[ext]
structure ResamplingSource where
  consumer : RingConsumer
  channels : ℕ
  inputSampleRate : ℕ
  position : ℚ
  prevSamples : ℕ → ℚ
  currSamples : ℕ → ℚ
  primed : Bool

/-- `ResamplingSource::new`: stores `channels.min(8)` as the channel count. -/
def ResamplingSource.new (consumer : RingConsumer) (channels inputSampleRate : ℕ) :
    ResamplingSource :=
  { consumer := consumer
    channels := min channels 8
    inputSampleRate := inputSampleRate
    position := 0
    prevSamples := fun _ => 0
    currSamples := fun _ => 0
    primed := false }

/-- `ResamplingSource::num_outputs`: returns the stored channel count. -/
def ResamplingSource.num_outputs (s : ResamplingSource) : ℕ := s.channels

/-- Body of `ResamplingSource::read_frame`: the `for ch in 0..self.channels`
loop, popping one sample per channel into `curr_samples[ch]`.  `rem` counts the
remaining channels, `ch` the next channel index; a failed pop returns `false`
at once, keeping the samples already consumed (partial frame). -/
def readFrameGo : ResamplingSource → ℕ → ℕ → Bool × ResamplingSource
  | s, _, 0 => (true, s)
  | s, ch, rem + 1 =>
    match s.consumer.pop with
    | (none, c') => (false, { s with consumer := c' })
    | (some v, c') =>
      readFrameGo
        { s with
          consumer := c'
          currSamples := fun j => if j = ch then v else s.currSamples j }
        (ch + 1) rem

/-- `ResamplingSource::read_frame`: read one frame (all channels), true on
success. -/
def ResamplingSource.read_frame (s : ResamplingSource) : Bool × ResamplingSource :=
  readFrameGo s 0 s.channels

/-- `ResamplingSource::advance_frame`: copy `curr_samples[ch]` to
`prev_samples[ch]` for every `ch < channels`. -/
def ResamplingSource.advance_frame (s : ResamplingSource) : ResamplingSource :=
  { s with
    prevSamples := fun ch => if ch < s.channels then s.currSamples ch else s.prevSamples ch }

/-- The `while self.position >= 1.0` loop inside `ResamplingSource::process`:
decrement the position, advance the frame and read the next one; a failed read
is an underrun and exits with `true`.  The loop runs at most `⌊position⌋`
times, so any fuel of at least `⌈position⌉` realises the source's unbounded
`while`. -/
def advanceLoop : ℕ → ResamplingSource → ResamplingSource × Bool
  | 0, s => (s, false)
  | fuel + 1, s =>
    if 1 ≤ s.position then
      let s1 := ResamplingSource.advance_frame { s with position := s.position - 1 }
      match s1.read_frame with
      | (true, s2) => advanceLoop fuel s2
      | (false, s2) => (s2, true)
    else
      (s, false)

/-- The `for i in 0..buffer_len` loop of `ResamplingSource::process`, producing
one column (the value written to `buffer[i]` of each of the `numOut` output
buffers) per output sample.  On underrun the remainder of every buffer is
filled with silence and the flag `true` is returned, matching the early
`return`. -/
def processLoop (r : ℚ) (numOut : ℕ) : ℕ → ResamplingSource → ResamplingSource × List (List ℚ) × Bool
  | 0, s => (s, [], false)
  | n + 1, s =>
    match advanceLoop (Int.toNat ⌈s.position⌉) s with
    | (s1, true) => (s1, List.replicate (n + 1) (List.replicate numOut 0), true)
    | (s1, false) =>
      let col := (List.range numOut).map fun ch =>
        s1.prevSamples (ch % s1.channels) +
          s1.position * (s1.currSamples (ch % s1.channels) - s1.prevSamples (ch % s1.channels))
      let rest := processLoop r numOut n { s1 with position := s1.position + r }
      (rest.1, col :: rest.2.1, rest.2.2)

/-- Messages of the resampling source. -/
inductive ResamplingSourceMessage where
  | SetInputRate (rate : ℕ)

/-- Message handling at the top of `ResamplingSource::process`. -/
def applyMessage (s : ResamplingSource) (m : ResamplingSourceMessage) : ResamplingSource :=
  match m with
  | .SetInputRate rate => { s with inputSampleRate := rate }

/-- The priming step of `ResamplingSource::process`: when not yet primed, read
a frame, shift it to `prev`, read a second frame; `primed` becomes true only
when both reads succeed. -/
def primeIfNeeded (s : ResamplingSource) : ResamplingSource :=
  if s.primed then s
  else
    match s.read_frame with
    | (false, s1) => s1
    | (true, s1) =>
      match s1.advance_frame.read_frame with
      | (false, s3) => s3
      | (true, s3) => { s3 with primed := true }

/-- `ResamplingSource::process`.  `numOut` is the number of output buffers the
graph hands the node; the returned list holds one column per output sample
(the values written at that index across the buffers), and the flag records
whether the underrun branch was taken. -/
def ResamplingSource.process (ctx : ProcessContext) (messages : List ResamplingSourceMessage)
    (numOut : ℕ) (s : ResamplingSource) : ResamplingSource × List (List ℚ) × Bool :=
  let s := messages.foldl applyMessage s
  if numOut = 0 then (s, [], false)
  else
    let r : ℚ := (s.inputSampleRate : ℚ) / (ctx.sampleRate : ℚ)
    processLoop r numOut ctx.bufferSize (primeIfNeeded s)

/-- Repeated `process` calls with no messages: `N` output blocks, buffers of
`ctx.bufferSize` samples each, columns concatenated in order. -/
def processNBlocks (ctx : ProcessContext) (numOut : ℕ) :
    ℕ → ResamplingSource → ResamplingSource × List (List ℚ)
  | 0, s => (s, [])
  | n + 1, s =>
    let step := ResamplingSource.process ctx [] numOut s
    let rest := processNBlocks ctx numOut n step.1
    (rest.1, step.2.1 ++ rest.2)

/-- Replace the consumer's `writeIdx`: the effect of the producer thread
pushing more samples into the ring buffer between two `process` calls. -/
def ResamplingSource.setWrite (s : ResamplingSource) (w : ℕ) : ResamplingSource :=
  { s with consumer := { s.consumer with writeIdx := w } }

/-! ### RtrbSink (src/nodes/sink/rtrb_sink.rs) -/

/-- State of `RtrbSink`. -/
structure RtrbSink where
  producer : RingProducer
  channels : ℕ
deriving DecidableEq

/-- `RtrbSink::new`: stores `channels.max(1)`. -/
def RtrbSink.new (producer : RingProducer) (channels : ℕ) : RtrbSink :=
  { producer := producer, channels := max channels 1 }

/-- The interleaved sample sequence produced by the nested
`for i in 0..buffer_len { for ch in 0..self.channels { ... } }` loops of
`RtrbSink::process`: for each sample index, channels in order, the source
channel clamped to the last available input buffer. -/
def interleave (buffers : List (List ℚ)) (chans : ℕ) : ℕ → List ℚ
  | 0 => []
  | i + 1 =>
    interleave buffers chans i ++
      (List.range chans).map fun ch =>
        (buffers.getD (min ch (buffers.length - 1)) []).getD i 0

/-- `RtrbSink::process`: inputs is the slice of dasp `Input`s, each input
being the buffers of one producer.  Only `inputs[0]` is used; the block is
dropped whole when fewer than `buffer_len * channels` slots are free,
otherwise every sample is pushed interleaved. -/
def RtrbSink.process (s : RtrbSink) (inputs : List (List (List ℚ))) : RtrbSink :=
  match inputs with
  | [] => s
  | input :: _ =>
    if input.isEmpty then s
    else
      let bufferLen := (input.getD 0 []).length
      let samplesNeeded := bufferLen * s.channels
      if s.producer.slots < samplesNeeded then s
      else
        { s with producer := (interleave input s.channels bufferLen).foldl RingProducer.push s.producer }

/-! ### Mixer (src/nodes/effect/mixer.rs) -/

/-- Sample-wise accumulation `out_buf.iter_mut().zip(in_buf.iter())` of
`Mixer::process`: entries beyond the shorter list are left as they are. -/
def addInto (out inb : List ℚ) : List ℚ :=
  (out.zipWith (fun a b => a + b) inb) ++ out.drop inb.length

/-- Input-channel selection of `Mixer::process`: a mono input feeds every
output channel, otherwise the channel index is clamped. -/
def inChannelFor (inputChannels outCh : ℕ) : ℕ :=
  if inputChannels = 1 then 0 else min outCh (inputChannels - 1)

/-- The `for (out_ch, out_buf) in output.iter_mut().enumerate()` loop of
`Mixer::process` for one input. -/
def mixRow (input : List (List ℚ)) : ℕ → List (List ℚ) → List (List ℚ)
  | _, [] => []
  | outCh, buf :: rest =>
    addInto buf (input.getD (inChannelFor input.length outCh) []) :: mixRow input (outCh + 1) rest

/-- `Mixer::process`: clear the output buffers, then sum every input into
them.  `inputs` is the slice of dasp `Input`s (one per producer edge), each
input being that producer's buffers. -/
def mixerProcess (inputs : List (List (List ℚ))) (numOut bufferLen : ℕ) : List (List ℚ) :=
  inputs.foldl (fun output input => mixRow input 0 output)
    (List.replicate numOut (List.replicate bufferLen 0))

/-! ### Graph execution input collection (src/graph.rs)

`AudioGraph::process` delegates to the dasp_graph `Processor`, which hands
every node one `Input` per incoming edge, each holding that producer's output
buffers; `DaspAdapter::process` (src/graph.rs lines 56-66) forwards this slice
unchanged to the wrapped node.  No summation happens on the way. -/

/-- Minimal graph snapshot for one execution step: per-node output buffers and
the directed edge list. -/
structure MiniGraph where
  nodeOutputs : List (List (List ℚ))
  edges : List (ℕ × ℕ)

/-- The input slice the executor presents to `consumer`: one entry per
incoming edge, namely the producer's buffers, unchanged. -/
def inputsFor (g : MiniGraph) (consumer : ℕ) : List (List (List ℚ)) :=
  (g.edges.filter fun e => e.2 = consumer).map fun e => g.nodeOutputs.getD e.1 []

/-! ### AudioGraph and Klingt (src/graph.rs, src/klingt.rs) -/

/-- The scheduling-relevant state of `AudioGraph`: the optional terminal and a
count of how many times `processor.process` has actually run. -/
structure AudioGraphSt where
  terminal : Option ℕ
  blocksRun : ℕ
deriving DecidableEq

/-- `AudioGraph::process`: `if let Some(terminal) = self.terminal` — the inner
processor runs only when a terminal is set; otherwise the call is a no-op. -/
def AudioGraphSt.process (g : AudioGraphSt) : AudioGraphSt :=
  match g.terminal with
  | some _ => { g with blocksRun := g.blocksRun + 1 }
  | none => g

/-- Following the spec's failure semantics, for comparison with
`AudioGraphSt.process`: calling process with no terminal configured is a
configuration error, rejected at the API boundary (`none`). -/
def AudioGraphSt.processSpecFailFast (g : AudioGraphSt) : Option AudioGraphSt :=
  match g.terminal with
  | some _ => some g.process
  | none => none

/-- One `SubGraph` entry of the engine (src/klingt.rs): its graph, its sample
rate and its processed-block counter. -/
structure SubGraph where
  graph : AudioGraphSt
  sample_rate : ℕ
  blocksProcessed : ℕ
deriving DecidableEq

/-- The scheduling-relevant state of `Klingt`. -/
structure KlingtSt where
  mainGraph : AudioGraphSt
  sampleRate : ℕ
  subGraphs : List SubGraph
  mainBlocksProcessed : ℕ
deriving DecidableEq

/-- The pacing step of `Klingt::process` for one sub-graph:
`blocks_needed = ceil(main_blocks * rate_ratio) + 4`, then
`while blocks_processed < blocks_needed` run the sub-graph once and increment
the counter.  (`as u64` on a non-negative f64 is `Int.toNat` here.) -/
def paceSubGraph (mainBlocks sampleRate : ℕ) (sub : SubGraph) : SubGraph :=
  let blocksNeeded : ℕ :=
    (Int.toNat ⌈(mainBlocks : ℚ) * ((sub.sample_rate : ℚ) / (sampleRate : ℚ))⌉) + 4
  { sub with
    graph := AudioGraphSt.process^[blocksNeeded - sub.blocksProcessed] sub.graph
    blocksProcessed := max sub.blocksProcessed blocksNeeded }

/-- `Klingt::process`: pace every sub-graph against `main_blocks_processed + 1`
upcoming main blocks, then run the main graph once and count it. -/
def KlingtSt.process (k : KlingtSt) : KlingtSt :=
  { k with
    subGraphs := k.subGraphs.map (paceSubGraph (k.mainBlocksProcessed + 1) k.sampleRate)
    mainGraph := k.mainGraph.process
    mainBlocksProcessed := k.mainBlocksProcessed + 1 }

/-- Routing decided by `Klingt::connect`. -/
inductive ConnectKind where
  | mainDirect
  | sameSub
  | bridge
deriving DecidableEq

/-- The `match (from_graph_id, to_graph_id)` of `Klingt::connect`: graph id 0
is the main graph, a nonzero id is the sample rate of a sub-graph.  `none`
models the panicking paths (the final catch-all arm, and the `unwrap` on a
sub-graph id absent from the map). -/
def connectOutcome (subRates : List ℕ) (fromGraphId toGraphId : ℕ) : Option ConnectKind :=
  if fromGraphId = 0 ∧ toGraphId = 0 then some .mainDirect
  else if fromGraphId = toGraphId ∧ fromGraphId ≠ 0 then
    if fromGraphId ∈ subRates then some .sameSub else none
  else if fromGraphId ≠ 0 ∧ toGraphId = 0 then
    if fromGraphId ∈ subRates then some .bridge else none
  else none

/-! ### Parameter channel (`Handle::send`, src/klingt.rs; queue created in
`AudioGraph::add_with_queue_size`, src/graph.rs) -/

/-- A `Handle` with its rtrb message producer, modeled as the queue capacity
plus the queued messages (oldest first). -/
structure Handle (α : Type) where
  cap : ℕ
  queue : List α

/-- `Handle::send`: non-blocking; returns the unsent message (`some msg`,
modelling `Err(msg)`) exactly when the queue is full. -/
def Handle.send {α : Type} (h : Handle α) (msg : α) : Option α × Handle α :=
  if h.queue.length < h.cap then (none, { h with queue := h.queue ++ [msg] })
  else (some msg, h)

/-- A sequence of sends with no intervening drain; returns the final queue
state and the rejected messages in order. -/
def Handle.sendSeq {α : Type} : Handle α → List α → Handle α × List α
  | h, [] => (h, [])
  | h, m :: ms =>
    let step := h.send m
    let rest := step.2.sendSeq ms
    (rest.1, step.1.toList ++ rest.2)

/-- Default message-queue capacity: `AudioGraph::add` calls
`add_with_queue_size(node, 64)`. -/
def defaultQueueSize : ℕ := 64

/-! ### Bookkeeping helpers for the resampler proofs -/

/-- Frames read in the advance loops over `n` output samples starting at
position `q`: each sample first consumes `⌊q⌋` frames, then the position
advances by the rate ratio `r`. -/
def loopReads (r : ℚ) : ℚ → ℕ → ℕ
  | _, 0 => 0
  | q, n + 1 => Int.toNat ⌊q⌋ + loopReads r (q - ⌊q⌋ + r) n

/-- Position after `n` output samples starting at position `q`. -/
def loopPos (r : ℚ) : ℚ → ℕ → ℚ
  | q, 0 => q
  | q, n + 1 => loopPos r (q - ⌊q⌋ + r) n

/-- Frame `m` of the interleaved ring-buffer stream, restricted to the first
`c` channels (zero beyond, matching the untouched interpolation slots). -/
def frameR (data : ℕ → ℚ) (c m : ℕ) : ℕ → ℚ :=
  fun ch => if ch < c then data (c * m + ch) else 0

/-! ## Lemmas and theorems -/

theorem ceil_as_neg_floor (q : ℚ) : (⌈q⌉ : ℤ) = -⌊-q⌋ := by
  rw [Int.floor_neg, neg_neg]

/-! ### Parameter channel (claim C4) -/

theorem sendSeq_take_drop {α : Type} :
    ∀ (ms : List α) (h : Handle α),
      h.sendSeq ms =
        (⟨h.cap, h.queue ++ ms.take (h.cap - h.queue.length)⟩,
          ms.drop (h.cap - h.queue.length)) := by
  intro ms
  induction ms with
  | nil => intro h; simp [Handle.sendSeq]
  | cons m ms ih =>
    intro h
    by_cases hlt : h.queue.length < h.cap
    · obtain ⟨k, hk⟩ : ∃ k, h.cap - h.queue.length = k + 1 := ⟨h.cap - h.queue.length - 1, by omega⟩
      have hk' : h.cap - (h.queue.length + 1) = k := by omega
      simp [Handle.sendSeq, Handle.send, hlt, ih, hk, hk', List.append_assoc]
    · have h0 : h.cap - h.queue.length = 0 := by omega
      have h0' : h.cap - h.queue.length < 1 := by omega
      simp [Handle.sendSeq, Handle.send, hlt, ih, h0]

/-- C4: a Parameter Channel of capacity C accepts sends non-blockingly while
fewer than C messages are queued; with no intervening drain the first C
messages are the ones kept, in FIFO order, and exactly the excess sends return
the unsent message as an error; the default capacity is 64. -/
theorem c4_channel_capacity_fifo :
    ∀ (α : Type) (C : ℕ) (ms : List α),
      Handle.sendSeq ⟨C, []⟩ ms = (⟨C, ms.take C⟩, ms.drop C) ∧
        (∀ (h : Handle α) (m : α),
          (h.send m).1 = if h.queue.length < h.cap then none else some m) ∧
        defaultQueueSize = 64 := by
  intro α C ms
  refine ⟨?_, ?_, rfl⟩
  · simpa using sendSeq_take_drop ms ⟨C, []⟩
  · intro h m
    by_cases hlt : h.queue.length < h.cap <;> simp [Handle.send, hlt]

/-! ### Connect dispatch (claim C8) -/

/-- C8: `Klingt::connect` fails fast exactly on the unsupported graph-id
combinations (main into sub-graph, or two different nonzero sub-graph ids) and
succeeds on the supported ones, routing sub-graph to main through the bridge;
handles produced by `add` carry a live sub-graph rate when nonzero. -/
theorem c8_connect_supported_combinations :
    ∀ (subRates : List ℕ) (f t : ℕ),
      (f ≠ 0 → f ∈ subRates) → (t ≠ 0 → t ∈ subRates) →
      ((connectOutcome subRates f t = none ↔
          (f = 0 ∧ t ≠ 0) ∨ (f ≠ 0 ∧ t ≠ 0 ∧ f ≠ t)) ∧
        (f ≠ 0 → t = 0 → connectOutcome subRates f t = some .bridge)) := by
  intro subRates f t hf ht
  by_cases hf0 : f = 0
  · subst hf0
    by_cases ht0 : t = 0
    · subst ht0; simp [connectOutcome]
    · simp [connectOutcome, ht0, Ne.symm ht0]
  · by_cases ht0 : t = 0
    · subst ht0
      simp [connectOutcome, hf0, hf hf0]
    · by_cases hft : f = t
      · subst hft
        simp [connectOutcome, hf0, ht0, hf hf0]
      · simp [connectOutcome, hf0, ht0, hft]

theorem c8_connect_supported_combinations_witness :
    ((connectOutcome [44100] 44100 0 = none ↔
        ((44100:ℕ) = 0 ∧ (0:ℕ) ≠ 0) ∨ ((44100:ℕ) ≠ 0 ∧ (0:ℕ) ≠ 0 ∧ (44100:ℕ) ≠ 0)) ∧
      ((44100:ℕ) ≠ 0 → (0:ℕ) = 0 → connectOutcome [44100] 44100 0 = some .bridge)) :=
  c8_connect_supported_combinations [44100] 44100 0 (by simp) (by simp)

/-! ### Missing terminal (claim C3) -/

/-- C3 counterexample: with no terminal configured, `AudioGraph::process`
returns normally with the state unchanged (the processor does not run), while
the spec's fail-fast reading would reject the call. -/
theorem c3_counterexample :
    AudioGraphSt.process ⟨none, 5⟩ = ⟨none, 5⟩ ∧
      AudioGraphSt.processSpecFailFast ⟨none, 5⟩ = none ∧
      some (AudioGraphSt.process ⟨none, 5⟩) ≠ AudioGraphSt.processSpecFailFast ⟨none, 5⟩ := by
  refine ⟨rfl, rfl, by decide⟩

/-- C3 (amended): calling process with no terminal configured is tolerated as
a silent no-op: `AudioGraph::process` leaves the graph unchanged and runs no
block, and `Klingt::process` still returns normally and increments
`main_blocks_processed`. -/
theorem c3_no_terminal_silent_noop :
    (∀ g : AudioGraphSt, g.terminal = none → AudioGraphSt.process g = g) ∧
      (∀ k : KlingtSt, k.mainGraph.terminal = none →
        (KlingtSt.process k).mainGraph = k.mainGraph ∧
          (KlingtSt.process k).mainBlocksProcessed = k.mainBlocksProcessed + 1) := by
  constructor
  · intro g h
    simp [AudioGraphSt.process, h]
  · intro k h
    constructor
    · simp [KlingtSt.process, AudioGraphSt.process, h]
    · simp [KlingtSt.process]

theorem c3_no_terminal_silent_noop_witness :
    AudioGraphSt.process ⟨none, 7⟩ = ⟨none, 7⟩ ∧
      (KlingtSt.process ⟨⟨none, 0⟩, 48000, [], 3⟩).mainGraph = ⟨none, 0⟩ ∧
        (KlingtSt.process ⟨⟨none, 0⟩, 48000, [], 3⟩).mainBlocksProcessed = 3 + 1 :=
  ⟨c3_no_terminal_silent_noop.1 ⟨none, 7⟩ rfl,
    c3_no_terminal_silent_noop.2 ⟨⟨none, 0⟩, 48000, [], 3⟩ rfl⟩

/-! ### Pacing invariant (claim C2) -/

/-- C2: at the moment `Klingt::process` advances the primary graph, every
sub-graph's processed-block counter is at least
`ceil(main_blocks_processed * R / S)`, where `main_blocks_processed` counts
the primary blocks completed so far. -/
theorem c2_pacing_invariant :
    ∀ (k : KlingtSt), 0 < k.sampleRate →
      ∀ sub' ∈ (KlingtSt.process k).subGraphs,
        Int.toNat ⌈(k.mainBlocksProcessed : ℚ) *
            ((sub'.sample_rate : ℚ) / (k.sampleRate : ℚ))⌉ ≤ sub'.blocksProcessed := by
  intro k hS sub' hmem
  simp only [KlingtSt.process, List.mem_map] at hmem
  obtain ⟨sub, _, rfl⟩ := hmem
  simp only [paceSubGraph]
  have hratio : (0:ℚ) ≤ (sub.sample_rate : ℚ) / (k.sampleRate : ℚ) :=
    div_nonneg (Nat.cast_nonneg _) (Nat.cast_nonneg _)
  have hmono : ⌈(k.mainBlocksProcessed : ℚ) * ((sub.sample_rate : ℚ) / (k.sampleRate : ℚ))⌉ ≤
      ⌈((k.mainBlocksProcessed + 1 : ℕ) : ℚ) * ((sub.sample_rate : ℚ) / (k.sampleRate : ℚ))⌉ := by
    apply Int.ceil_le_ceil
    apply mul_le_mul_of_nonneg_right _ hratio
    push_cast
    linarith
  have := Int.toNat_le_toNat hmono
  omega

theorem c2_pacing_invariant_witness :
    0 < (48000:ℕ) ∧
      Int.toNat ⌈((0:ℕ) : ℚ) * (((24000:ℕ) : ℚ) / ((48000:ℕ) : ℚ))⌉ ≤
        (paceSubGraph (0 + 1) 48000 ⟨⟨none, 0⟩, 24000, 0⟩).blocksProcessed :=
  ⟨by norm_num,
    c2_pacing_invariant ⟨⟨none, 0⟩, 48000, [⟨⟨none, 0⟩, 24000, 0⟩], 0⟩ (by norm_num)
      (paceSubGraph (0 + 1) 48000 ⟨⟨none, 0⟩, 24000, 0⟩) (by simp [KlingtSt.process])⟩

/-! ### RtrbSink all-or-nothing push (claim C9) -/

theorem foldl_push_append :
    ∀ (l : List ℚ) (p : RingProducer), p.queue.length + l.length ≤ p.cap →
      l.foldl RingProducer.push p = ⟨p.cap, p.queue ++ l⟩ := by
  intro l
  induction l with
  | nil => intro p _; simp
  | cons v vs ih =>
    intro p hle
    have hlt : p.queue.length < p.cap := by simp at hle; omega
    have : RingProducer.push p v = ⟨p.cap, p.queue ++ [v]⟩ := by
      simp [RingProducer.push, hlt]
    rw [List.foldl_cons, this, ih]
    · simp
    · simp at hle ⊢; omega

theorem interleave_length :
    ∀ (len : ℕ) (buffers : List (List ℚ)) (chans : ℕ),
      (interleave buffers chans len).length = len * chans := by
  intro len
  induction len with
  | zero => intro buffers chans; simp [interleave]
  | succ n ih =>
    intro buffers chans
    simp [interleave, ih, Nat.succ_mul]

theorem rtrbSink_process_cons (s : RtrbSink) (input : List (List ℚ))
    (rest : List (List (List ℚ))) (hemp : input.isEmpty = false) :
    RtrbSink.process s (input :: rest) =
      if s.producer.slots < (input.getD 0 []).length * s.channels then s
      else
        { s with
          producer :=
            (interleave input s.channels (input.getD 0 []).length).foldl
              RingProducer.push s.producer } := by
  simp only [RtrbSink.process, hemp, Bool.false_eq_true, if_false]

/-- C9: for a non-empty input of block length L on a sink with c channels,
`RtrbSink::process` leaves the ring buffer completely unchanged when fewer
than L*c slots are free, and otherwise pushes exactly L*c samples,
interleaved frame by frame with the source channel clamped to the last
available input buffer — the push is all-or-nothing per block. -/
theorem c9_sink_all_or_nothing :
    ∀ (s : RtrbSink) (input : List (List ℚ)) (rest : List (List (List ℚ))) (L : ℕ),
      input ≠ [] → (∀ b ∈ input, b.length = L) →
      s.producer.queue.length ≤ s.producer.cap →
      ((s.producer.slots < L * s.channels → RtrbSink.process s (input :: rest) = s) ∧
        (L * s.channels ≤ s.producer.slots →
          (RtrbSink.process s (input :: rest)).producer.cap = s.producer.cap ∧
            (RtrbSink.process s (input :: rest)).channels = s.channels ∧
            (RtrbSink.process s (input :: rest)).producer.queue =
              s.producer.queue ++ interleave input s.channels L ∧
            (RtrbSink.process s (input :: rest)).producer.queue.length =
              s.producer.queue.length + L * s.channels)) := by
  intro s input rest L hne hlen hinv
  have hemp : input.isEmpty = false := by
    cases input with
    | nil => exact absurd rfl hne
    | cons b bs => rfl
  have hL : (input.getD 0 []).length = L := by
    cases input with
    | nil => exact absurd rfl hne
    | cons b bs => exact hlen b (by simp)
  rw [rtrbSink_process_cons s input rest hemp, hL]
  constructor
  · intro hlt
    rw [if_pos hlt]
  · intro hge
    have hnlt : ¬ s.producer.slots < L * s.channels := by omega
    rw [if_neg hnlt]
    have hfits : s.producer.queue.length + (interleave input s.channels L).length ≤
        s.producer.cap := by
      rw [interleave_length]
      simp only [RingProducer.slots] at hge
      omega
    rw [foldl_push_append _ _ hfits]
    exact ⟨rfl, rfl, rfl, by simp [interleave_length]⟩

theorem c9_sink_all_or_nothing_witness :
    (((⟨⟨8, []⟩, 2⟩ : RtrbSink).producer.slots < 2 * 2 →
        RtrbSink.process ⟨⟨8, []⟩, 2⟩ [[[1, 2], [3, 4]]] = ⟨⟨8, []⟩, 2⟩) ∧
      (2 * 2 ≤ ((⟨⟨8, []⟩, 2⟩ : RtrbSink)).producer.slots →
        (RtrbSink.process ⟨⟨8, []⟩, 2⟩ [[[1, 2], [3, 4]]]).producer.cap = 8 ∧
          (RtrbSink.process ⟨⟨8, []⟩, 2⟩ [[[1, 2], [3, 4]]]).channels = 2 ∧
          (RtrbSink.process ⟨⟨8, []⟩, 2⟩ [[[1, 2], [3, 4]]]).producer.queue =
            ([] : List ℚ) ++ interleave [[1, 2], [3, 4]] 2 2 ∧
          (RtrbSink.process ⟨⟨8, []⟩, 2⟩ [[[1, 2], [3, 4]]]).producer.queue.length =
            (([] : List ℚ)).length + 2 * 2)) :=
  c9_sink_all_or_nothing ⟨⟨8, []⟩, 2⟩ [[1, 2], [3, 4]] [] 2 (by simp)
    (by intro b hb; simp at hb; rcases hb with h | h <;> simp [h]) (by simp)

/-! ### Fan-in is not pre-summed; mixing is the Mixer's job (claim C1) -/

theorem zipWith_add_replicate_zero :
    ∀ (A : List ℚ), List.zipWith (fun a b => a + b) (List.replicate A.length 0) A = A := by
  intro A
  induction A with
  | nil => simp
  | cons a as ih => simp [List.replicate_succ, ih]

theorem addInto_replicate_zero (A : List ℚ) (L : ℕ) (h : A.length = L) :
    addInto (List.replicate L 0) A = A := by
  subst h
  simp [addInto, zipWith_add_replicate_zero]

theorem addInto_same_length (A B : List ℚ) (h : A.length = B.length) :
    addInto A B = List.zipWith (fun a b => a + b) A B := by
  have hdrop : A.drop B.length = [] := by
    rw [← h]
    exact List.drop_length A
  simp [addInto, hdrop]

theorem getD_zipWith_add :
    ∀ (A B : List ℚ) (i : ℕ), i < A.length → i < B.length →
      (List.zipWith (fun a b => a + b) A B).getD i 0 = A.getD i 0 + B.getD i 0 := by
  intro A
  induction A with
  | nil => intro B i h; simp at h
  | cons a as ih =>
    intro B i hA hB
    cases B with
    | nil => simp at hB
    | cons b bs =>
      cases i with
      | zero => simp
      | succ j =>
        simp only [List.zipWith_cons_cons, List.getD_cons_succ]
        exact ih bs j (by simpa using hA) (by simpa using hB)

/-- C1 counterexample: with producers A (all 1) and B (all 2) both feeding
consumer node 2, the executor hands the consumer two separate per-producer
inputs — not a single merged buffer with A[i] + B[i] = 3 — and a single-input
consumer such as RtrbSink consequently observes A alone. -/
theorem c1_counterexample :
    inputsFor ⟨[[List.replicate 4 (1:ℚ)], [List.replicate 4 (2:ℚ)], []], [(0, 2), (1, 2)]⟩ 2 =
        [[List.replicate 4 (1:ℚ)], [List.replicate 4 (2:ℚ)]] ∧
      [[List.replicate 4 (1:ℚ)], [List.replicate 4 (2:ℚ)]] ≠
        [[List.replicate 4 ((1:ℚ) + 2)]] ∧
      (RtrbSink.process ⟨⟨100, []⟩, 1⟩
          (inputsFor ⟨[[List.replicate 4 (1:ℚ)], [List.replicate 4 (2:ℚ)], []],
            [(0, 2), (1, 2)]⟩ 2)).producer.queue = List.replicate 4 (1:ℚ) ∧
      List.replicate 4 (1:ℚ) ≠ List.replicate 4 ((1:ℚ) + 2) := by
  refine ⟨by simp [inputsFor], by simp, ?_, ?_⟩
  · norm_num [inputsFor, RtrbSink.process, RingProducer.slots, RingProducer.push,
      interleave, List.replicate_succ]
  · norm_num [List.replicate_succ]

/-- C1 (amended): the graph layer does not pre-sum fan-in — each consumer
receives one separate Input per producer edge — and sample-wise summation is
instead performed by mixing nodes: a Mixer fed by producers A and B outputs,
at every sample index i, A[i] + B[i]. -/
theorem c1_mixer_fanin_sum :
    ∀ (A B : List ℚ) (L i : ℕ), A.length = L → B.length = L → i < L →
      ((mixerProcess [[A], [B]] 1 L).getD 0 []).getD i 0 = A.getD i 0 + B.getD i 0 := by
  intro A B L i hA hB hi
  have step1 : mixRow [A] 0 [List.replicate L 0] = [A] := by
    simp [mixRow, inChannelFor, addInto_replicate_zero A L hA]
  have step2 : mixRow [B] 0 [A] = [List.zipWith (fun a b => a + b) A B] := by
    simp [mixRow, inChannelFor, addInto_same_length A B (hA.trans hB.symm)]
  simp only [mixerProcess, List.foldl_cons, List.foldl_nil, List.replicate_one, step1, step2]
  simpa using getD_zipWith_add A B i (hA ▸ hi) (hB ▸ hi)

theorem c1_mixer_fanin_sum_witness :
    ((mixerProcess [[[(5:ℚ), 7]], [[(11:ℚ), 13]]] 1 2).getD 0 []).getD 0 0 =
      List.getD [(5:ℚ), 7] 0 0 + List.getD [(11:ℚ), 13] 0 0 :=
  c1_mixer_fanin_sum [(5:ℚ), 7] [(11:ℚ), 13] 2 0 (by simp) (by simp) (by norm_num)

/-! ### Channel-count mismatch of the bridge (claim C10) -/

theorem readFrameGo_true_readIdx :
    ∀ (rem : ℕ) (s : ResamplingSource) (ch : ℕ) (s' : ResamplingSource),
      readFrameGo s ch rem = (true, s') →
      s'.consumer.readIdx = s.consumer.readIdx + rem := by
  intro rem
  induction rem with
  | zero =>
    intro s ch s' h
    simp [readFrameGo] at h
    simp [← h]
  | succ n ih =>
    intro s ch s' h
    simp only [readFrameGo, RingConsumer.pop] at h
    by_cases hp : s.consumer.readIdx < s.consumer.writeIdx
    · rw [if_pos hp] at h
      have := ih _ _ _ h
      simp at this
      omega
    · rw [if_neg hp] at h
      simp at h

/-- Concrete primed mono resampler state used by the C10 witness. -/
def sC10 : ResamplingSource :=
  ⟨⟨fun _ => 0, 0, 5⟩, 1, 48000, 0, fun _ => 0, fun _ => 0, true⟩

/-- C10: `ResamplingSource::new` stores min(c, 8) as its channel count —
`num_outputs` returns it and every successful frame read pops exactly that
many samples — while `RtrbSink::new` for the same channel count stores
max(c, 1); the two per-frame counts differ whenever c > 8. -/
theorem c10_channel_count_mismatch :
    ∀ (cons : RingConsumer) (p : RingProducer) (c R : ℕ)
      (s s' : ResamplingSource),
      (ResamplingSource.new cons c R).channels = min c 8 ∧
        (ResamplingSource.new cons c R).num_outputs = min c 8 ∧
        (s.read_frame = (true, s') →
          s'.consumer.readIdx = s.consumer.readIdx + s.channels) ∧
        (RtrbSink.new p c).channels = max c 1 ∧
        (8 < c → min c 8 ≠ max c 1) := by
  intro cons p c R s s'
  refine ⟨rfl, rfl, ?_, rfl, ?_⟩
  · intro h
    exact readFrameGo_true_readIdx s.channels s 0 s' h
  · intro h
    omega

theorem c10_channel_count_mismatch_witness :
    (ResamplingSource.new ⟨fun _ => 0, 0, 5⟩ 9 48000).channels = min 9 8 ∧
      (sC10.read_frame).2.consumer.readIdx = sC10.consumer.readIdx + sC10.channels ∧
      min 9 8 ≠ max 9 1 :=
  ⟨(c10_channel_count_mismatch ⟨fun _ => 0, 0, 5⟩ ⟨4, []⟩ 9 48000 sC10
      ((sC10.read_frame).2)).1,
    (c10_channel_count_mismatch ⟨fun _ => 0, 0, 5⟩ ⟨4, []⟩ 9 48000 sC10
      ((sC10.read_frame).2)).2.2.1 rfl,
    (c10_channel_count_mismatch ⟨fun _ => 0, 0, 5⟩ ⟨4, []⟩ 9 48000 sC10
      ((sC10.read_frame).2)).2.2.2.2 (by norm_num)⟩

/-! ### Resampler machinery (claims C5, C6, C7) -/

theorem readFrameGo_pres :
    ∀ (rem : ℕ) (s : ResamplingSource) (ch : ℕ),
      (readFrameGo s ch rem).2.channels = s.channels ∧
        (readFrameGo s ch rem).2.position = s.position ∧
        (readFrameGo s ch rem).2.primed = s.primed ∧
        (readFrameGo s ch rem).2.inputSampleRate = s.inputSampleRate ∧
        (readFrameGo s ch rem).2.prevSamples = s.prevSamples ∧
        (readFrameGo s ch rem).2.consumer.data = s.consumer.data ∧
        (readFrameGo s ch rem).2.consumer.writeIdx = s.consumer.writeIdx := by
  intro rem
  induction rem with
  | zero => intro s ch; exact ⟨rfl, rfl, rfl, rfl, rfl, rfl, rfl⟩
  | succ n ih =>
    intro s ch
    simp only [readFrameGo, RingConsumer.pop]
    by_cases hp : s.consumer.readIdx < s.consumer.writeIdx
    · rw [if_pos hp]
      exact ih _ (ch + 1)
    · rw [if_neg hp]
      exact ⟨rfl, rfl, rfl, rfl, rfl, rfl, rfl⟩

theorem readFrameGo_success :
    ∀ (rem : ℕ) (s : ResamplingSource) (ch : ℕ),
      s.consumer.readIdx + rem ≤ s.consumer.writeIdx →
      (readFrameGo s ch rem).1 = true ∧
        (readFrameGo s ch rem).2.consumer.readIdx = s.consumer.readIdx + rem ∧
        (∀ j, (readFrameGo s ch rem).2.currSamples j =
          if ch ≤ j ∧ j < ch + rem then s.consumer.data (s.consumer.readIdx + (j - ch))
          else s.currSamples j) := by
  intro rem
  induction rem with
  | zero =>
    intro s ch _
    refine ⟨rfl, by simp [readFrameGo], ?_⟩
    intro j
    rw [if_neg (by omega)]
    rfl
  | succ n ih =>
    intro s ch hle
    have hp : s.consumer.readIdx < s.consumer.writeIdx := by omega
    have hpop : s.consumer.pop =
        (some (s.consumer.data s.consumer.readIdx),
          { s.consumer with readIdx := s.consumer.readIdx + 1 }) := by
      simp [RingConsumer.pop, hp]
    simp only [readFrameGo, hpop]
    obtain ⟨h1, h2, h3⟩ := ih
      { s with
        consumer := { s.consumer with readIdx := s.consumer.readIdx + 1 }
        currSamples := fun j =>
          if j = ch then s.consumer.data s.consumer.readIdx else s.currSamples j }
      (ch + 1) (by simp; omega)
    refine ⟨h1, by rw [h2]; simp; omega, ?_⟩
    intro j
    rw [h3 j]
    simp only []
    split_ifs <;> first
      | rfl
      | (exfalso; omega)
      | (congr 1; omega)

theorem read_frame_pres (s : ResamplingSource) :
    (s.read_frame).2.channels = s.channels ∧
      (s.read_frame).2.position = s.position ∧
      (s.read_frame).2.primed = s.primed ∧
      (s.read_frame).2.inputSampleRate = s.inputSampleRate ∧
      (s.read_frame).2.prevSamples = s.prevSamples ∧
      (s.read_frame).2.consumer.data = s.consumer.data ∧
      (s.read_frame).2.consumer.writeIdx = s.consumer.writeIdx :=
  readFrameGo_pres s.channels s 0

theorem read_frame_success (s : ResamplingSource)
    (h : s.consumer.readIdx + s.channels ≤ s.consumer.writeIdx) :
    (s.read_frame).1 = true ∧
      (s.read_frame).2.consumer.readIdx = s.consumer.readIdx + s.channels ∧
      (∀ j, (s.read_frame).2.currSamples j =
        if j < s.channels then s.consumer.data (s.consumer.readIdx + j)
        else s.currSamples j) := by
  obtain ⟨h1, h2, h3⟩ := readFrameGo_success s.channels s 0 h
  refine ⟨h1, h2, ?_⟩
  intro j
  show (readFrameGo s 0 s.channels).2.currSamples j = _
  rw [h3 j]
  by_cases hj : j < s.channels
  · rw [if_pos (by omega), if_pos hj]
    simp
  · rw [if_neg (by omega), if_neg hj]

theorem advanceLoop_pres :
    ∀ (f : ℕ) (s : ResamplingSource),
      (advanceLoop f s).1.channels = s.channels ∧
        (advanceLoop f s).1.primed = s.primed ∧
        (advanceLoop f s).1.inputSampleRate = s.inputSampleRate ∧
        (advanceLoop f s).1.consumer.data = s.consumer.data ∧
        (advanceLoop f s).1.consumer.writeIdx = s.consumer.writeIdx := by
  intro f
  induction f with
  | zero => intro s; exact ⟨rfl, rfl, rfl, rfl, rfl⟩
  | succ n ih =>
    intro s
    simp only [advanceLoop]
    by_cases hp : 1 ≤ s.position
    · rw [if_pos hp]
      rcases hrf : (ResamplingSource.advance_frame
          { s with position := s.position - 1 }).read_frame with ⟨b, s2⟩
      have hpres : s2.channels = s.channels ∧ s2.primed = s.primed ∧
          s2.inputSampleRate = s.inputSampleRate ∧ s2.consumer.data = s.consumer.data ∧
          s2.consumer.writeIdx = s.consumer.writeIdx := by
        have h := read_frame_pres
          (ResamplingSource.advance_frame { s with position := s.position - 1 })
        rw [hrf] at h
        exact ⟨h.1, h.2.2.1, h.2.2.2.1, h.2.2.2.2.2.1, h.2.2.2.2.2.2⟩
      cases b
      · exact hpres
      · obtain ⟨i1, i2, i3, i4, i5⟩ := ih s2
        exact ⟨i1.trans hpres.1, i2.trans hpres.2.1, i3.trans hpres.2.2.1,
          i4.trans hpres.2.2.2.1, i5.trans hpres.2.2.2.2⟩
    · rw [if_neg hp]
      exact ⟨rfl, rfl, rfl, rfl, rfl⟩

theorem advanceLoop_pos_nonneg :
    ∀ (f : ℕ) (s : ResamplingSource), 0 ≤ s.position →
      0 ≤ (advanceLoop f s).1.position := by
  intro f
  induction f with
  | zero => intro s h; exact h
  | succ n ih =>
    intro s h
    simp only [advanceLoop]
    by_cases hp : 1 ≤ s.position
    · rw [if_pos hp]
      rcases hrf : (ResamplingSource.advance_frame
          { s with position := s.position - 1 }).read_frame with ⟨b, s2⟩
      have hpos : s2.position = s.position - 1 := by
        have h := read_frame_pres
          (ResamplingSource.advance_frame { s with position := s.position - 1 })
        rw [hrf] at h
        exact h.2.1
      cases b
      · simp only []
        rw [hpos]
        linarith
      · exact ih s2 (by rw [hpos]; linarith)
    · rw [if_neg hp]
      exact h

theorem advanceLoop_spec :
    ∀ (f : ℕ) (s : ResamplingSource), 0 ≤ s.position → s.position ≤ (f : ℚ) →
      s.consumer.readIdx + s.channels * Int.toNat ⌊s.position⌋ ≤ s.consumer.writeIdx →
      (advanceLoop f s).2 = false ∧
        (advanceLoop f s).1.position = s.position - ⌊s.position⌋ ∧
        (advanceLoop f s).1.consumer.readIdx =
          s.consumer.readIdx + s.channels * Int.toNat ⌊s.position⌋ := by
  intro f
  induction f with
  | zero =>
    intro s h0 hf _
    have hz : s.position = 0 := le_antisymm (by exact_mod_cast hf) h0
    refine ⟨rfl, ?_, ?_⟩
    · simp [advanceLoop, hz]
    · simp [advanceLoop, hz]
  | succ n ih =>
    intro s h0 hf hdata
    simp only [advanceLoop]
    by_cases hp : 1 ≤ s.position
    · rw [if_pos hp]
      have hfl1 : (1:ℤ) ≤ ⌊s.position⌋ := Int.le_floor.mpr (by exact_mod_cast hp)
      obtain ⟨t, ht⟩ : ∃ t, Int.toNat ⌊s.position⌋ = t + 1 :=
        ⟨Int.toNat ⌊s.position⌋ - 1, by omega⟩
      have hok : (ResamplingSource.advance_frame
            { s with position := s.position - 1 }).consumer.readIdx +
          (ResamplingSource.advance_frame
            { s with position := s.position - 1 }).channels ≤
          (ResamplingSource.advance_frame
            { s with position := s.position - 1 }).consumer.writeIdx := by
        simp only [ResamplingSource.advance_frame]
        have : s.channels * (t + 1) = s.channels * t + s.channels := by ring
        rw [ht, this] at hdata
        omega
      obtain ⟨hfl, hridx, _⟩ := read_frame_success _ hok
      rcases hrf : (ResamplingSource.advance_frame
          { s with position := s.position - 1 }).read_frame with ⟨b, s2⟩
      rw [hrf] at hfl hridx
      subst hfl
      have hpres := read_frame_pres
        (ResamplingSource.advance_frame { s with position := s.position - 1 })
      rw [hrf] at hpres
      have hpos2 : s2.position = s.position - 1 := hpres.2.1
      have hch2 : s2.channels = s.channels := hpres.1
      have hd2 : s2.consumer.data = s.consumer.data := hpres.2.2.2.2.2.1
      have hw2 : s2.consumer.writeIdx = s.consumer.writeIdx := hpres.2.2.2.2.2.2
      have hridx2 : s2.consumer.readIdx = s.consumer.readIdx + s.channels := hridx
      have hfloor2 : ⌊s2.position⌋ = ⌊s.position⌋ - 1 := by
        rw [hpos2]
        rw [show s.position - 1 = s.position - ((1:ℤ):ℚ) by push_cast; ring]
        exact Int.floor_sub_int s.position 1
      have htn2 : Int.toNat ⌊s2.position⌋ = t := by omega
      obtain ⟨j1, j2, j3⟩ := ih s2
        (by rw [hpos2]; linarith)
        (by rw [hpos2]; push_cast at hf ⊢; linarith)
        (by
          rw [hridx2, hch2, hw2, htn2]
          have hmul : s.channels * (t + 1) = s.channels * t + s.channels := by ring
          rw [ht, hmul] at hdata
          omega)
      refine ⟨j1, ?_, ?_⟩
      · rw [j2, hfloor2, hpos2]
        push_cast
        ring
      · rw [j3, hridx2, hch2, htn2, ht]
        have : s.channels * (t + 1) = s.channels * t + s.channels := by ring
        rw [this]
        omega
    · rw [if_neg hp]
      have hfl0 : ⌊s.position⌋ = 0 := by
        rw [Int.floor_eq_zero_iff]
        constructor
        · exact h0
        · exact lt_of_not_le hp
      refine ⟨rfl, ?_, ?_⟩
      · rw [hfl0]
        simp
      · rw [hfl0]
        simp

theorem processLoop_succ_of_advance (r : ℚ) (numOut n : ℕ) (s s1 : ResamplingSource)
    (h : advanceLoop (Int.toNat ⌈s.position⌉) s = (s1, false)) :
    processLoop r numOut (n + 1) s =
      ((processLoop r numOut n { s1 with position := s1.position + r }).1,
        ((List.range numOut).map fun ch =>
          s1.prevSamples (ch % s1.channels) +
            s1.position * (s1.currSamples (ch % s1.channels) - s1.prevSamples (ch % s1.channels))) ::
          (processLoop r numOut n { s1 with position := s1.position + r }).2.1,
        (processLoop r numOut n { s1 with position := s1.position + r }).2.2) := by
  simp only [processLoop, h]

theorem processLoop_succ_underrun (r : ℚ) (numOut n : ℕ) (s s1 : ResamplingSource)
    (h : advanceLoop (Int.toNat ⌈s.position⌉) s = (s1, true)) :
    processLoop r numOut (n + 1) s =
      (s1, List.replicate (n + 1) (List.replicate numOut 0), true) := by
  simp only [processLoop, h]

theorem processLoop_pos_nonneg (r : ℚ) (numOut : ℕ) (hr : 0 ≤ r) :
    ∀ (n : ℕ) (s : ResamplingSource), 0 ≤ s.position →
      0 ≤ (processLoop r numOut n s).1.position := by
  intro n
  induction n with
  | zero => intro s h; exact h
  | succ n ih =>
    intro s h
    have hnn := advanceLoop_pos_nonneg (Int.toNat ⌈s.position⌉) s h
    cases hflag : (advanceLoop (Int.toNat ⌈s.position⌉) s).2
    · rw [processLoop_succ_of_advance r numOut n s _ (by rw [← hflag])]
      exact ih _ (by simpa using add_nonneg hnn hr)
    · rw [processLoop_succ_underrun r numOut n s _ (by rw [← hflag])]
      exact hnn

theorem processLoop_spec (r : ℚ) (numOut : ℕ) (hr : 0 ≤ r) :
    ∀ (n : ℕ) (s : ResamplingSource), 0 ≤ s.position → 0 < s.channels →
      s.consumer.readIdx + s.channels * loopReads r s.position n ≤ s.consumer.writeIdx →
      (processLoop r numOut n s).2.2 = false ∧
        (processLoop r numOut n s).1.position = loopPos r s.position n ∧
        (processLoop r numOut n s).1.consumer.readIdx =
          s.consumer.readIdx + s.channels * loopReads r s.position n ∧
        (processLoop r numOut n s).1.channels = s.channels ∧
        (processLoop r numOut n s).1.primed = s.primed ∧
        (processLoop r numOut n s).1.inputSampleRate = s.inputSampleRate ∧
        (processLoop r numOut n s).1.consumer.data = s.consumer.data ∧
        (processLoop r numOut n s).1.consumer.writeIdx = s.consumer.writeIdx ∧
        (processLoop r numOut n s).2.1.length = n := by
  intro n
  induction n with
  | zero =>
    intro s h0 hc hdata
    exact ⟨rfl, rfl, by simp [processLoop, loopReads], rfl, rfl, rfl, rfl, rfl, rfl⟩
  | succ n ih =>
    intro s h0 hc hdata
    have hceil : (0:ℤ) ≤ ⌈s.position⌉ := Int.ceil_nonneg h0
    have hle : s.position ≤ ((Int.toNat ⌈s.position⌉ : ℕ) : ℚ) := by
      have h1 : s.position ≤ ((⌈s.position⌉ : ℤ) : ℚ) := Int.le_ceil _
      have h2 : ((Int.toNat ⌈s.position⌉ : ℕ) : ℚ) = ((⌈s.position⌉ : ℤ) : ℚ) := by
        exact_mod_cast congrArg (fun z : ℤ => (z : ℚ)) (Int.toNat_of_nonneg hceil)
      rw [h2]
      exact h1
    have hreads : loopReads r s.position (n + 1) =
        Int.toNat ⌊s.position⌋ + loopReads r (s.position - ⌊s.position⌋ + r) n := rfl
    have hdata1 : s.consumer.readIdx + s.channels * Int.toNat ⌊s.position⌋ ≤
        s.consumer.writeIdx := by
      rw [hreads, Nat.mul_add] at hdata
      omega
    obtain ⟨af, apos, aidx⟩ := advanceLoop_spec (Int.toNat ⌈s.position⌉) s h0 hle hdata1
    obtain ⟨ach, apr, air, ad, aw⟩ := advanceLoop_pres (Int.toNat ⌈s.position⌉) s
    have heq : advanceLoop (Int.toNat ⌈s.position⌉) s =
        ((advanceLoop (Int.toNat ⌈s.position⌉) s).1, false) := by rw [← af]
    rw [processLoop_succ_of_advance r numOut n s _ heq]
    have hfract : (0:ℚ) ≤ s.position - ⌊s.position⌋ := by
      have := Int.floor_le s.position
      linarith
    obtain ⟨f1, f2, f3, f4, f5, f6, f7, f8, f9⟩ := ih
      { (advanceLoop (Int.toNat ⌈s.position⌉) s).1 with
        position := (advanceLoop (Int.toNat ⌈s.position⌉) s).1.position + r }
      (by simp only []; rw [apos]; linarith)
      (by simp only []; rw [ach]; exact hc)
      (by
        simp only []
        rw [ach, aidx, aw, apos]
        rw [hreads, Nat.mul_add] at hdata
        omega)
    simp only [] at f1 f2 f3 f4 f5 f6 f7 f8 f9
    have e2 : loopPos r ((advanceLoop (Int.toNat ⌈s.position⌉) s).1.position + r) n =
        loopPos r s.position (n + 1) := by
      rw [apos]
      rfl
    have e3 : (advanceLoop (Int.toNat ⌈s.position⌉) s).1.consumer.readIdx +
          (advanceLoop (Int.toNat ⌈s.position⌉) s).1.channels *
            loopReads r ((advanceLoop (Int.toNat ⌈s.position⌉) s).1.position + r) n =
        s.consumer.readIdx + s.channels * loopReads r s.position (n + 1) := by
      rw [aidx, ach, apos, hreads, Nat.mul_add]
      ring
    exact ⟨f1, f2.trans e2, f3.trans e3, f4.trans ach, f5.trans apr, f6.trans air,
      f7.trans ad, f8.trans aw, by simp [f9]⟩

theorem loopReads_closed (r : ℚ) (hr : 0 ≤ r) :
    ∀ (n : ℕ) (q : ℚ), 0 ≤ q →
      ((loopReads r q (n + 1) : ℕ) : ℤ) = ⌊q + (n : ℚ) * r⌋ := by
  intro n
  induction n with
  | zero =>
    intro q h0
    show ((Int.toNat ⌊q⌋ + loopReads r (q - ⌊q⌋ + r) 0 : ℕ) : ℤ) = ⌊q + 0 * r⌋
    simp [loopReads, Int.toNat_of_nonneg (Int.floor_nonneg.mpr h0)]
  | succ n ih =>
    intro q h0
    have hq' : (0:ℚ) ≤ q - ⌊q⌋ + r := by
      have := Int.floor_le q
      linarith
    have hcast : ((n + 1 : ℕ) : ℚ) = (n : ℚ) + 1 := by push_cast; ring
    rw [hcast]
    show ((Int.toNat ⌊q⌋ + loopReads r (q - ⌊q⌋ + r) (n + 1) : ℕ) : ℤ) = ⌊q + ((n:ℚ) + 1) * r⌋
    rw [Nat.cast_add, Int.toNat_of_nonneg (Int.floor_nonneg.mpr h0), ih (q - ⌊q⌋ + r) hq']
    have harg : q - ⌊q⌋ + r + (n : ℚ) * r = q + ((n:ℚ) + 1) * r - ((⌊q⌋ : ℤ) : ℚ) := by
      push_cast
      ring
    rw [harg, Int.floor_sub_int]
    ring

theorem loopPos_closed (r : ℚ) :
    ∀ (n : ℕ) (q : ℚ),
      loopPos r q (n + 1) = q + ((n:ℚ) + 1) * r - ⌊q + (n : ℚ) * r⌋ := by
  intro n
  induction n with
  | zero =>
    intro q
    simp only [loopPos]
    rw [show q + ((0:ℕ):ℚ) * r = q from by push_cast; ring]
    push_cast
    ring
  | succ n ih =>
    intro q
    have hcast : ((n + 1 : ℕ) : ℚ) = (n : ℚ) + 1 := by push_cast; ring
    rw [hcast]
    show loopPos r (q - ⌊q⌋ + r) (n + 1) = _
    rw [ih (q - ⌊q⌋ + r)]
    have harg : q - ⌊q⌋ + r + (n : ℚ) * r = q + ((n:ℚ) + 1) * r - ((⌊q⌋ : ℤ) : ℚ) := by
      push_cast
      ring
    rw [harg, Int.floor_sub_int]
    push_cast
    ring

theorem loopReads_add (r : ℚ) :
    ∀ (a b : ℕ) (q : ℚ),
      loopReads r q (a + b) = loopReads r q a + loopReads r (loopPos r q a) b := by
  intro a
  induction a with
  | zero => intro b q; simp [loopReads, loopPos]
  | succ a ih =>
    intro b q
    rw [show a + 1 + b = a + b + 1 from by omega]
    show Int.toNat ⌊q⌋ + loopReads r (q - ⌊q⌋ + r) (a + b) = _
    rw [ih b (q - ⌊q⌋ + r)]
    show _ = Int.toNat ⌊q⌋ + loopReads r (q - ⌊q⌋ + r) a +
      loopReads r (loopPos r (q - ⌊q⌋ + r) a) b
    omega

theorem loopPos_add (r : ℚ) :
    ∀ (a b : ℕ) (q : ℚ),
      loopPos r q (a + b) = loopPos r (loopPos r q a) b := by
  intro a
  induction a with
  | zero => intro b q; simp [loopPos]
  | succ a ih =>
    intro b q
    rw [show a + 1 + b = a + b + 1 from by omega]
    show loopPos r (q - ⌊q⌋ + r) (a + b) = loopPos r (loopPos r (q - ⌊q⌋ + r) a) b
    exact ih b (q - ⌊q⌋ + r)

theorem primeIfNeeded_of_primed (s : ResamplingSource) (h : s.primed = true) :
    primeIfNeeded s = s := by
  simp [primeIfNeeded, h]

theorem process_eq_processLoop (ctx : ProcessContext) (numOut : ℕ)
    (s : ResamplingSource) (hn : numOut ≠ 0) :
    ResamplingSource.process ctx [] numOut s =
      processLoop ((s.inputSampleRate : ℚ) / (ctx.sampleRate : ℚ)) numOut ctx.bufferSize
        (primeIfNeeded s) := by
  simp [ResamplingSource.process, hn]

theorem primeIfNeeded_new (data : ℕ → ℚ) (W cIn R : ℕ)
    (hW : 2 * min cIn 8 ≤ W) :
    (primeIfNeeded (ResamplingSource.new ⟨data, 0, W⟩ cIn R)).primed = true ∧
      (primeIfNeeded (ResamplingSource.new ⟨data, 0, W⟩ cIn R)).channels = min cIn 8 ∧
      (primeIfNeeded (ResamplingSource.new ⟨data, 0, W⟩ cIn R)).inputSampleRate = R ∧
      (primeIfNeeded (ResamplingSource.new ⟨data, 0, W⟩ cIn R)).position = 0 ∧
      (primeIfNeeded (ResamplingSource.new ⟨data, 0, W⟩ cIn R)).consumer.data = data ∧
      (primeIfNeeded (ResamplingSource.new ⟨data, 0, W⟩ cIn R)).consumer.writeIdx = W ∧
      (primeIfNeeded (ResamplingSource.new ⟨data, 0, W⟩ cIn R)).consumer.readIdx =
        2 * min cIn 8 ∧
      (∀ j, (primeIfNeeded (ResamplingSource.new ⟨data, 0, W⟩ cIn R)).prevSamples j =
        frameR data (min cIn 8) 0 j) ∧
      (∀ j, (primeIfNeeded (ResamplingSource.new ⟨data, 0, W⟩ cIn R)).currSamples j =
        frameR data (min cIn 8) 1 j) := by
  have hok0 : (ResamplingSource.new ⟨data, 0, W⟩ cIn R).consumer.readIdx +
      (ResamplingSource.new ⟨data, 0, W⟩ cIn R).channels ≤
      (ResamplingSource.new ⟨data, 0, W⟩ cIn R).consumer.writeIdx := by
    simp [ResamplingSource.new]
    omega
  obtain ⟨b1f, r1idx, r1curr⟩ := read_frame_success _ hok0
  have pres1 := read_frame_pres (ResamplingSource.new ⟨data, 0, W⟩ cIn R)
  rcases h1 : (ResamplingSource.new ⟨data, 0, W⟩ cIn R).read_frame with ⟨b1, t1⟩
  rw [h1] at b1f r1idx r1curr pres1
  subst b1f
  obtain ⟨p1ch, p1pos, p1pr, p1ir, p1prev, p1d, p1w⟩ := pres1
  simp only [ResamplingSource.new] at p1ch p1pos p1pr p1ir p1prev p1d p1w r1idx r1curr
  have hok2 : t1.advance_frame.consumer.readIdx + t1.advance_frame.channels ≤
      t1.advance_frame.consumer.writeIdx := by
    simp only [ResamplingSource.advance_frame]
    rw [r1idx, p1ch, p1w]
    omega
  obtain ⟨b2f, r2idx, r2curr⟩ := read_frame_success _ hok2
  have pres2 := read_frame_pres t1.advance_frame
  rcases h2 : t1.advance_frame.read_frame with ⟨b2, t3⟩
  rw [h2] at b2f r2idx r2curr pres2
  subst b2f
  obtain ⟨p2ch, p2pos, p2pr, p2ir, p2prev, p2d, p2w⟩ := pres2
  simp only [ResamplingSource.advance_frame] at p2ch p2pos p2pr p2ir p2prev p2d p2w r2idx r2curr
  have hpr0 : (ResamplingSource.new ⟨data, 0, W⟩ cIn R).primed = false := rfl
  have hunfold : primeIfNeeded (ResamplingSource.new ⟨data, 0, W⟩ cIn R) =
      { t3 with primed := true } := by
    simp only [primeIfNeeded, hpr0, Bool.false_eq_true, if_false, h1, h2]
  rw [hunfold]
  refine ⟨rfl, ?_, ?_, ?_, ?_, ?_, ?_, ?_, ?_⟩
  · show t3.channels = min cIn 8
    rw [p2ch, p1ch]
  · show t3.inputSampleRate = R
    rw [p2ir, p1ir]
  · show t3.position = 0
    rw [p2pos, p1pos]
  · show t3.consumer.data = data
    rw [p2d, p1d]
  · show t3.consumer.writeIdx = W
    rw [p2w, p1w]
  · show t3.consumer.readIdx = 2 * min cIn 8
    rw [r2idx, r1idx, p1ch]
    omega
  · intro j
    show t3.prevSamples j = frameR data (min cIn 8) 0 j
    rw [p2prev]
    simp only []
    rw [p1ch]
    by_cases hj : j < min cIn 8
    · rw [if_pos hj, r1curr j, if_pos hj]
      show data (0 + j) = frameR data (min cIn 8) 0 j
      simp [frameR, hj]
    · rw [if_neg hj]
      rw [show t1.prevSamples = fun _ => (0:ℚ) from p1prev]
      show (0:ℚ) = frameR data (min cIn 8) 0 j
      simp [frameR, hj]
  · intro j
    show t3.currSamples j = frameR data (min cIn 8) 1 j
    rw [r2curr j, p1ch, p1d, r1idx]
    by_cases hj : j < min cIn 8
    · rw [if_pos hj]
      simp [frameR, hj]
    · rw [if_neg hj, r1curr j, if_neg hj]
      simp [frameR, hj]

theorem processNBlocks_spec (ctx : ProcessContext) (numOut R : ℕ) (hn : numOut ≠ 0) :
    ∀ (N : ℕ) (s : ResamplingSource), s.primed = true → s.inputSampleRate = R →
      0 < s.channels → 0 ≤ s.position →
      s.consumer.readIdx + s.channels *
          loopReads ((R:ℚ)/(ctx.sampleRate:ℚ)) s.position (N * ctx.bufferSize) ≤
        s.consumer.writeIdx →
      (processNBlocks ctx numOut N s).1.consumer.readIdx =
          s.consumer.readIdx + s.channels *
            loopReads ((R:ℚ)/(ctx.sampleRate:ℚ)) s.position (N * ctx.bufferSize) ∧
        (processNBlocks ctx numOut N s).1.position =
          loopPos ((R:ℚ)/(ctx.sampleRate:ℚ)) s.position (N * ctx.bufferSize) ∧
        (processNBlocks ctx numOut N s).1.primed = true ∧
        (processNBlocks ctx numOut N s).1.channels = s.channels ∧
        (processNBlocks ctx numOut N s).1.inputSampleRate = R ∧
        (processNBlocks ctx numOut N s).1.consumer.data = s.consumer.data ∧
        (processNBlocks ctx numOut N s).1.consumer.writeIdx = s.consumer.writeIdx := by
  have hr : (0:ℚ) ≤ (R:ℚ)/(ctx.sampleRate:ℚ) :=
    div_nonneg (Nat.cast_nonneg _) (Nat.cast_nonneg _)
  intro N
  induction N with
  | zero =>
    intro s hp hR hc h0 _
    refine ⟨?_, ?_, hp, rfl, hR, rfl, rfl⟩
    · simp [processNBlocks, loopReads]
    · simp [processNBlocks, loopPos]
  | succ N ih =>
    intro s hp hR hc h0 hdata
    set r := (R:ℚ)/(ctx.sampleRate:ℚ) with hrdef
    have hsplit : (N + 1) * ctx.bufferSize = ctx.bufferSize + N * ctx.bufferSize := by ring
    rw [hsplit, loopReads_add] at hdata
    rw [hsplit, loopReads_add, loopPos_add]
    have hstep : ResamplingSource.process ctx [] numOut s =
        processLoop r numOut ctx.bufferSize s := by
      rw [process_eq_processLoop ctx numOut s hn, primeIfNeeded_of_primed s hp, hR]
    have hdata1 : s.consumer.readIdx +
        s.channels * loopReads r s.position ctx.bufferSize ≤ s.consumer.writeIdx := by
      rw [Nat.mul_add] at hdata
      omega
    obtain ⟨g1, g2, g3, g4, g5, g6, g7, g8, g9⟩ :=
      processLoop_spec r numOut hr ctx.bufferSize s h0 hc hdata1
    have hdata2 : (processLoop r numOut ctx.bufferSize s).1.consumer.readIdx +
        (processLoop r numOut ctx.bufferSize s).1.channels *
          loopReads r (processLoop r numOut ctx.bufferSize s).1.position
            (N * ctx.bufferSize) ≤
        (processLoop r numOut ctx.bufferSize s).1.consumer.writeIdx := by
      rw [g3, g4, g2, g8]
      rw [Nat.mul_add] at hdata
      omega
    obtain ⟨k1, k2, k3, k4, k5, k6, k7⟩ :=
      ih ((processLoop r numOut ctx.bufferSize s).1) (g5.trans hp) (g6.trans hR)
        (g4 ▸ hc) (processLoop_pos_nonneg r numOut hr ctx.bufferSize s h0) hdata2
    simp only [processNBlocks, hstep]
    have e1 : (processLoop r numOut ctx.bufferSize s).1.consumer.readIdx +
        (processLoop r numOut ctx.bufferSize s).1.channels *
          loopReads r (processLoop r numOut ctx.bufferSize s).1.position
            (N * ctx.bufferSize) =
        s.consumer.readIdx + s.channels *
          (loopReads r s.position ctx.bufferSize +
            loopReads r (loopPos r s.position ctx.bufferSize) (N * ctx.bufferSize)) := by
      rw [g3, g4, g2, Nat.mul_add]
      ring
    have e2 : loopPos r (processLoop r numOut ctx.bufferSize s).1.position
        (N * ctx.bufferSize) =
        loopPos r (loopPos r s.position ctx.bufferSize) (N * ctx.bufferSize) := by
      rw [g2]
    exact ⟨k1.trans e1, k2.trans e2, k3, k4.trans g4, k5, k6.trans g7, k7.trans g8⟩

theorem resampler_total_consumption
    (R S cIn numOut N B W : ℕ) (data : ℕ → ℚ)
    (hS : 0 < S) (hc : 0 < min cIn 8) (hn : numOut ≠ 0) (hN : 1 ≤ N) (hB : 1 ≤ B)
    (hW : min cIn 8 * (2 + Int.toNat ⌊(((N * B - 1 : ℕ) : ℚ)) * R / S⌋) ≤ W) :
    (processNBlocks ⟨S, B⟩ numOut N
        (ResamplingSource.new ⟨data, 0, W⟩ cIn R)).1.consumer.readIdx =
      min cIn 8 * (2 + Int.toNat ⌊(((N * B - 1 : ℕ) : ℚ)) * R / S⌋) := by
  have hr : (0:ℚ) ≤ (R:ℚ)/(S:ℚ) := div_nonneg (Nat.cast_nonneg _) (Nat.cast_nonneg _)
  have hNB : 1 ≤ N * B := by
    calc 1 = 1 * 1 := by ring
    _ ≤ N * B := Nat.mul_le_mul hN hB
  obtain ⟨M, hM⟩ : ∃ M, N * B = M + 1 := ⟨N * B - 1, by omega⟩
  -- closed form of the loop consumption over all N*B samples
  have hclosed : loopReads ((R:ℚ)/(S:ℚ)) 0 (N * B) =
      Int.toNat ⌊(((N * B - 1 : ℕ) : ℚ)) * R / S⌋ := by
    rw [hM, Nat.add_sub_cancel]
    have h1 := loopReads_closed ((R:ℚ)/(S:ℚ)) hr M 0 le_rfl
    have harg : (0:ℚ) + (M : ℚ) * ((R:ℚ)/(S:ℚ)) = ((M:ℕ):ℚ) * R / S := by
      ring
    rw [harg] at h1
    omega
  have hW2 : 2 * min cIn 8 ≤ W := by
    have : min cIn 8 * (2 + Int.toNat ⌊(((N * B - 1 : ℕ) : ℚ)) * R / S⌋) =
        2 * min cIn 8 +
          min cIn 8 * Int.toNat ⌊(((N * B - 1 : ℕ) : ℚ)) * R / S⌋ := by ring
    rw [this] at hW
    omega
  obtain ⟨q1, q2, q3, q4, q5, q6, q7, q8, q9⟩ := primeIfNeeded_new data W cIn R hW2
  have hr0 : (ResamplingSource.new ⟨data, 0, W⟩ cIn R).inputSampleRate = R := rfl
  -- the first process call primes and then behaves like a call on the primed state
  have hswap : (processNBlocks ⟨S, B⟩ numOut N
        (ResamplingSource.new ⟨data, 0, W⟩ cIn R)).1 =
      (processNBlocks ⟨S, B⟩ numOut N
        (primeIfNeeded (ResamplingSource.new ⟨data, 0, W⟩ cIn R))).1 := by
    obtain ⟨N', rfl⟩ : ∃ N', N = N' + 1 := ⟨N - 1, by omega⟩
    have hsame : ResamplingSource.process ⟨S, B⟩ [] numOut
          (ResamplingSource.new ⟨data, 0, W⟩ cIn R) =
        ResamplingSource.process ⟨S, B⟩ [] numOut
          (primeIfNeeded (ResamplingSource.new ⟨data, 0, W⟩ cIn R)) := by
      rw [process_eq_processLoop _ _ _ hn, process_eq_processLoop _ _ _ hn,
        primeIfNeeded_of_primed _ q1, hr0, q3]
    simp only [processNBlocks, hsame]
  rw [hswap]
  have hdata : (primeIfNeeded (ResamplingSource.new ⟨data, 0, W⟩ cIn R)).consumer.readIdx +
      (primeIfNeeded (ResamplingSource.new ⟨data, 0, W⟩ cIn R)).channels *
        loopReads ((R:ℚ)/(S:ℚ))
          (primeIfNeeded (ResamplingSource.new ⟨data, 0, W⟩ cIn R)).position
          (N * B) ≤
      (primeIfNeeded (ResamplingSource.new ⟨data, 0, W⟩ cIn R)).consumer.writeIdx := by
    rw [q7, q2, q4, q6, hclosed]
    have : min cIn 8 * (2 + Int.toNat ⌊(((N * B - 1 : ℕ) : ℚ)) * R / S⌋) =
        2 * min cIn 8 +
          min cIn 8 * Int.toNat ⌊(((N * B - 1 : ℕ) : ℚ)) * R / S⌋ := by ring
    rw [this] at hW
    omega
  obtain ⟨k1, _, _, _, _, _, _⟩ :=
    processNBlocks_spec ⟨S, B⟩ numOut R hn N
      (primeIfNeeded (ResamplingSource.new ⟨data, 0, W⟩ cIn R)) q1 q3
      (q2 ▸ hc) (le_of_eq q4.symm) hdata
  rw [k1]
  simp only []
  rw [q7, q2, q4, hclosed]
  ring

/-- C7 (amended): after N ≥ 1 output blocks of B samples each at rate ratio
R/S with no underrun, the resampler has consumed exactly
`2 + floor((N*B - 1) * R/S)` input frames — the two priming frames plus the
interpolation advances.  (The claim's `floor(N*B*R/S) ± 1` fails, e.g. at
R/S = 1/6.) -/
theorem c7_consumed_frames_formula
    (R S cIn numOut N B W : ℕ) (data : ℕ → ℚ)
    (hS : 0 < S) (hc : 0 < min cIn 8) (hn : numOut ≠ 0) (hN : 1 ≤ N) (hB : 1 ≤ B)
    (hW : min cIn 8 * (2 + Int.toNat ⌊(((N * B - 1 : ℕ) : ℚ)) * R / S⌋) ≤ W) :
    (processNBlocks ⟨S, B⟩ numOut N
        (ResamplingSource.new ⟨data, 0, W⟩ cIn R)).1.consumer.readIdx =
      min cIn 8 * (2 + Int.toNat ⌊(((N * B - 1 : ℕ) : ℚ)) * R / S⌋) :=
  resampler_total_consumption R S cIn numOut N B W data hS hc hn hN hB hW

theorem c7_consumed_frames_formula_witness :
    (processNBlocks ⟨48000, 2⟩ 1 1
        (ResamplingSource.new ⟨fun _ => 0, 0, 3⟩ 1 48000)).1.consumer.readIdx =
      min 1 8 * (2 + Int.toNat ⌊(((1 * 2 - 1 : ℕ) : ℚ)) * 48000 / 48000⌋) :=
  c7_consumed_frames_formula 48000 48000 1 1 1 2 3 (fun _ => 0) (by norm_num)
    (by norm_num) (by norm_num) le_rfl (by norm_num)
    (by norm_num [Int.toNat_ofNat])

/-- C7 counterexample: one 64-sample block at rate ratio 8000/48000 on a mono
bridge consumes 12 input frames (2 priming frames plus 10 advances), while the
claim's formula `floor(64 * 8000/48000) = 10` allows at most 11. -/
theorem c7_counterexample :
    (processNBlocks ⟨48000, 64⟩ 1 1
        (ResamplingSource.new ⟨fun _ => 0, 0, 12⟩ 1 8000)).1.consumer.readIdx = 12 ∧
      Int.toNat ⌊(1 * 64 : ℚ) * 8000 / 48000⌋ = 10 ∧
      ¬(12 ≤ 10 + 1) := by
  refine ⟨?_, ?_, by norm_num⟩
  · have h := resampler_total_consumption 8000 48000 1 1 1 64 12 (fun _ => 0)
      (by norm_num) (by norm_num) (by norm_num) le_rfl (by norm_num)
      (by norm_num; decide)
    rw [h]
    norm_num
    decide
  · norm_num
    decide

theorem processLoop_unit (numOut c W : ℕ) (data : ℕ → ℚ) (hc : 0 < c) :
    ∀ (n : ℕ) (s : ResamplingSource) (m0 : ℕ),
      s.channels = c → s.position = 1 → s.consumer.data = data →
      s.consumer.writeIdx = W → s.consumer.readIdx = c * (m0 + 2) →
      (∀ j, s.prevSamples j = frameR data c m0 j) →
      (∀ j, s.currSamples j = frameR data c (m0 + 1) j) →
      c * (m0 + 2 + n) ≤ W →
      (processLoop 1 numOut n s).2.2 = false ∧
        (processLoop 1 numOut n s).2.1 =
          (List.range n).map (fun i => (List.range numOut).map fun ch =>
            data (c * (m0 + 1 + i) + ch % c)) ∧
        (processLoop 1 numOut n s).1.position = 1 ∧
        (processLoop 1 numOut n s).1.channels = c ∧
        (processLoop 1 numOut n s).1.primed = s.primed ∧
        (processLoop 1 numOut n s).1.inputSampleRate = s.inputSampleRate ∧
        (processLoop 1 numOut n s).1.consumer.data = data ∧
        (processLoop 1 numOut n s).1.consumer.writeIdx = W ∧
        (processLoop 1 numOut n s).1.consumer.readIdx = c * (m0 + 2 + n) ∧
        (∀ j, (processLoop 1 numOut n s).1.prevSamples j = frameR data c (m0 + n) j) ∧
        (∀ j, (processLoop 1 numOut n s).1.currSamples j = frameR data c (m0 + 1 + n) j) := by
  intro n
  induction n with
  | zero =>
    intro s m0 hch hpos hd hw hidx hprev hcurr hdata
    refine ⟨rfl, by simp [processLoop], hpos, hch, rfl, rfl, hd, hw, by simpa using hidx,
      ?_, ?_⟩
    · intro j
      simpa using hprev j
    · intro j
      simpa using hcurr j
  | succ n ih =>
    intro s m0 hch hpos hd hw hidx hprev hcurr hdata
    -- the while loop runs exactly once: position is 1
    have hfuel : Int.toNat ⌈s.position⌉ = 1 := by
      rw [hpos]
      simp
    have hok : (ResamplingSource.advance_frame
          { s with position := s.position - 1 }).consumer.readIdx +
        (ResamplingSource.advance_frame
          { s with position := s.position - 1 }).channels ≤
        (ResamplingSource.advance_frame
          { s with position := s.position - 1 }).consumer.writeIdx := by
      simp only [ResamplingSource.advance_frame]
      rw [hidx, hch, hw]
      have : c * (m0 + 2 + (n + 1)) = c * (m0 + 2) + c + c * n := by ring
      rw [this] at hdata
      omega
    obtain ⟨rfl_flag, ridx, rcurr⟩ := read_frame_success _ hok
    have hpres := read_frame_pres
      (ResamplingSource.advance_frame { s with position := s.position - 1 })
    -- the state after the single loop iteration
    have hAL : advanceLoop (Int.toNat ⌈s.position⌉) s =
        (((ResamplingSource.advance_frame
            { s with position := s.position - 1 }).read_frame).2, false) := by
      rw [hfuel]
      simp only [advanceLoop]
      rw [if_pos (le_of_eq hpos.symm)]
      rw [show (ResamplingSource.advance_frame
          { s with position := s.position - 1 }).read_frame =
        (true, ((ResamplingSource.advance_frame
          { s with position := s.position - 1 }).read_frame).2) from by rw [← rfl_flag]]
    set X := ((ResamplingSource.advance_frame
        { s with position := s.position - 1 }).read_frame).2 with hX
    have hXpos : X.position = 0 := by
      rw [hX, hpres.2.1]
      simp only [ResamplingSource.advance_frame]
      rw [hpos]
      norm_num
    have hXch : X.channels = c := by
      rw [hX, hpres.1]
      exact hch
    have hXpr : X.primed = s.primed := hpres.2.2.1
    have hXir : X.inputSampleRate = s.inputSampleRate := hpres.2.2.2.1
    have hXd : X.consumer.data = data := by
      rw [hX, hpres.2.2.2.2.2.1]
      exact hd
    have hXw : X.consumer.writeIdx = W := by
      rw [hX, hpres.2.2.2.2.2.2]
      exact hw
    have hXidx : X.consumer.readIdx = c * (m0 + 3) := by
      rw [hX, ridx]
      simp only [ResamplingSource.advance_frame]
      rw [hidx, hch]
      ring
    have hXprev : ∀ j, X.prevSamples j = frameR data c (m0 + 1) j := by
      intro j
      rw [hX, hpres.2.2.2.2.1]
      simp only [ResamplingSource.advance_frame]
      by_cases hj : j < c
      · rw [hch, if_pos hj, hcurr j]
      · rw [hch, if_neg hj, hprev j, frameR, if_neg hj, frameR, if_neg hj]
    have hXcurr : ∀ j, X.currSamples j = frameR data c (m0 + 2) j := by
      intro j
      rw [hX, rcurr j]
      simp only [ResamplingSource.advance_frame]
      rw [hch, hidx, hd]
      by_cases hj : j < c
      · rw [if_pos hj, frameR, if_pos hj]
      · rw [if_neg hj, hcurr j, frameR, if_neg hj, frameR, if_neg hj]
    rw [processLoop_succ_of_advance 1 numOut n s X hAL]
    obtain ⟨f1, f2, f3, f4, f5, f6, f7, f8, f9, f10, f11⟩ := ih
      { X with position := X.position + 1 } (m0 + 1)
      (by simpa using hXch)
      (by simp only []; rw [hXpos]; norm_num)
      (by simpa using hXd)
      (by simpa using hXw)
      (by simp only []; rw [hXidx])
      (by intro j; simpa using hXprev j)
      (by intro j; simpa using hXcurr j)
      (by rw [show m0 + 1 + 2 + n = m0 + 2 + (n + 1) from by omega]; exact hdata)
    have hcol : ((List.range numOut).map fun ch =>
        X.prevSamples (ch % X.channels) +
          X.position * (X.currSamples (ch % X.channels) - X.prevSamples (ch % X.channels))) =
        (List.range numOut).map fun ch => data (c * (m0 + 1 + 0) + ch % c) := by
      apply List.map_congr_left
      intro ch _
      rw [hXpos, hXch, hXprev (ch % c)]
      rw [frameR, if_pos (Nat.mod_lt ch hc)]
      simp
    refine ⟨f1, ?_, f3, f4, by rw [f5]; exact hXpr, by rw [f6]; exact hXir, f7, f8,
      ?_, ?_, ?_⟩
    · rw [f2, hcol, List.range_succ_eq_map]
      simp only [List.map_cons, List.map_map]
      congr 1
      apply List.map_congr_left
      intro i _
      simp only [Function.comp_apply, Nat.succ_eq_add_one]
      rw [show m0 + 1 + 1 + i = m0 + 1 + (i + 1) from by omega]
    · rw [f9, show m0 + 1 + 2 + n = m0 + 2 + (n + 1) from by omega]
    · intro j
      rw [f10 j, show m0 + 1 + n = m0 + (n + 1) from by omega]
    · intro j
      rw [f11 j, show m0 + 1 + 1 + n = m0 + 1 + (n + 1) from by omega]

theorem processLoop_unit_start (numOut c W : ℕ) (data : ℕ → ℚ) (hc : 0 < c)
    (n : ℕ) (s : ResamplingSource) (m0 : ℕ)
    (hch : s.channels = c) (hpos : s.position = 0) (hd : s.consumer.data = data)
    (hw : s.consumer.writeIdx = W) (hidx : s.consumer.readIdx = c * (m0 + 2))
    (hprev : ∀ j, s.prevSamples j = frameR data c m0 j)
    (hcurr : ∀ j, s.currSamples j = frameR data c (m0 + 1) j)
    (hdata : c * (m0 + 2 + n) ≤ W) :
    (processLoop 1 numOut (n + 1) s).2.2 = false ∧
      (processLoop 1 numOut (n + 1) s).2.1 =
        (List.range (n + 1)).map (fun i => (List.range numOut).map fun ch =>
          data (c * (m0 + i) + ch % c)) ∧
      (processLoop 1 numOut (n + 1) s).1.position = 1 ∧
      (processLoop 1 numOut (n + 1) s).1.channels = c ∧
      (processLoop 1 numOut (n + 1) s).1.primed = s.primed ∧
      (processLoop 1 numOut (n + 1) s).1.inputSampleRate = s.inputSampleRate ∧
      (processLoop 1 numOut (n + 1) s).1.consumer.data = data ∧
      (processLoop 1 numOut (n + 1) s).1.consumer.writeIdx = W ∧
      (processLoop 1 numOut (n + 1) s).1.consumer.readIdx = c * (m0 + 2 + n) ∧
      (∀ j, (processLoop 1 numOut (n + 1) s).1.prevSamples j = frameR data c (m0 + n) j) ∧
      (∀ j, (processLoop 1 numOut (n + 1) s).1.currSamples j = frameR data c (m0 + 1 + n) j) := by
  have hAL : advanceLoop (Int.toNat ⌈s.position⌉) s = (s, false) := by
    rw [hpos]
    simp [advanceLoop]
  rw [processLoop_succ_of_advance 1 numOut n s s hAL]
  obtain ⟨f1, f2, f3, f4, f5, f6, f7, f8, f9, f10, f11⟩ := processLoop_unit numOut c W data hc
    n { s with position := s.position + 1 } m0
    (by simpa using hch)
    (by simp only []; rw [hpos]; norm_num)
    (by simpa using hd)
    (by simpa using hw)
    (by simpa using hidx)
    (by intro j; simpa using hprev j)
    (by intro j; simpa using hcurr j)
    hdata
  have hcol : ((List.range numOut).map fun ch =>
      s.prevSamples (ch % s.channels) +
        s.position * (s.currSamples (ch % s.channels) - s.prevSamples (ch % s.channels))) =
      (List.range numOut).map fun ch => data (c * (m0 + 0) + ch % c) := by
    apply List.map_congr_left
    intro ch _
    rw [hpos, hch, hprev (ch % c)]
    rw [frameR, if_pos (Nat.mod_lt ch hc)]
    simp
  refine ⟨f1, ?_, f3, f4, f5, f6, f7, f8, f9, f10, f11⟩
  rw [f2, hcol, List.range_succ_eq_map]
  simp only [List.map_cons, List.map_map]
  congr 1
  apply List.map_congr_left
  intro i _
  simp only [Function.comp_apply, Nat.succ_eq_add_one]
  rw [show m0 + 1 + i = m0 + (i + 1) from by omega]

theorem processNBlocks_unit (S B numOut c W : ℕ) (data : ℕ → ℚ)
    (hS : 0 < S) (hc : 0 < c) (hn : numOut ≠ 0) :
    ∀ (k : ℕ) (s : ResamplingSource) (m0 : ℕ),
      s.primed = true → s.inputSampleRate = S → s.channels = c → s.position = 1 →
      s.consumer.data = data → s.consumer.writeIdx = W →
      s.consumer.readIdx = c * (m0 + 2) →
      (∀ j, s.prevSamples j = frameR data c m0 j) →
      (∀ j, s.currSamples j = frameR data c (m0 + 1) j) →
      c * (m0 + 2 + k * B) ≤ W →
      (processNBlocks ⟨S, B⟩ numOut k s).2 =
          (List.range (k * B)).map (fun i => (List.range numOut).map fun ch =>
            data (c * (m0 + 1 + i) + ch % c)) ∧
        (processNBlocks ⟨S, B⟩ numOut k s).1.primed = true ∧
        (processNBlocks ⟨S, B⟩ numOut k s).1.inputSampleRate = S ∧
        (processNBlocks ⟨S, B⟩ numOut k s).1.channels = c ∧
        (processNBlocks ⟨S, B⟩ numOut k s).1.position = 1 ∧
        (processNBlocks ⟨S, B⟩ numOut k s).1.consumer.data = data ∧
        (processNBlocks ⟨S, B⟩ numOut k s).1.consumer.writeIdx = W ∧
        (processNBlocks ⟨S, B⟩ numOut k s).1.consumer.readIdx = c * (m0 + 2 + k * B) ∧
        (∀ j, (processNBlocks ⟨S, B⟩ numOut k s).1.prevSamples j =
          frameR data c (m0 + k * B) j) ∧
        (∀ j, (processNBlocks ⟨S, B⟩ numOut k s).1.currSamples j =
          frameR data c (m0 + 1 + k * B) j) := by
  have hSne : ((S:ℕ):ℚ) ≠ 0 := Nat.cast_ne_zero.mpr hS.ne'
  intro k
  induction k with
  | zero =>
    intro s m0 hp hR hch hpos hd hw hidx hprev hcurr _
    refine ⟨by simp [processNBlocks], hp, hR, hch, hpos, hd, hw,
      by simpa using hidx, ?_, ?_⟩
    · intro j
      simpa using hprev j
    · intro j
      simpa using hcurr j
  | succ k ih =>
    intro s m0 hp hR hch hpos hd hw hidx hprev hcurr hdata
    have hstep : ResamplingSource.process ⟨S, B⟩ [] numOut s =
        processLoop 1 numOut B s := by
      rw [process_eq_processLoop _ _ _ hn, primeIfNeeded_of_primed s hp, hR]
      simp only []
      rw [div_self hSne]
    have hdata1 : c * (m0 + 2 + B) ≤ W := by
      have hmono : m0 + 2 + B ≤ m0 + 2 + (k + 1) * B := by
        have : B ≤ (k + 1) * B := Nat.le_mul_of_pos_left B (by omega)
        omega
      exact le_trans (Nat.mul_le_mul_left c hmono) hdata
    obtain ⟨g1, g2, g3, g4, g5, g6, g7, g8, g9, g10, g11⟩ :=
      processLoop_unit numOut c W data hc B s m0 hch hpos hd hw hidx hprev hcurr hdata1
    have hdata2 : c * (m0 + B + 2 + k * B) ≤ W := by
      have : m0 + B + 2 + k * B = m0 + 2 + (k + 1) * B := by ring
      rw [this]
      exact hdata
    obtain ⟨k1, k2, k3, k4, k5, k6, k7, k8, k9, k10⟩ :=
      ih ((processLoop 1 numOut B s).1) (m0 + B)
        (g5.trans hp) (g6.trans hR) g4 g3 g7 g8
        (by rw [g9, show m0 + B + 2 = m0 + 2 + B from by omega])
        (by intro j; rw [g10 j, show m0 + B = m0 + B from rfl])
        (by intro j; rw [g11 j, show m0 + B + 1 = m0 + 1 + B from by omega])
        hdata2
    simp only [processNBlocks, hstep]
    refine ⟨?_, k2, k3, k4, k5, k6, k7, ?_, ?_, ?_⟩
    · rw [g2, k1]
      rw [show (k + 1) * B = B + k * B from by ring, List.range_add, List.map_append]
      congr 1
      rw [List.map_map]
      apply List.map_congr_left
      intro i _
      simp only [Function.comp_apply]
      rw [show m0 + B + 1 + i = m0 + 1 + (B + i) from by omega]
    · rw [k8, show m0 + B + 2 + k * B = m0 + 2 + (k + 1) * B from by ring]
    · intro j
      rw [k9 j, show m0 + B + k * B = m0 + (k + 1) * B from by ring]
    · intro j
      rw [k10 j, show m0 + B + 1 + k * B = m0 + 1 + (k + 1) * B from by ring]

/-- C6: when the resampler's input sample rate equals the graph's output sample
rate (rate ratio exactly 1) and the ring buffer holds enough data that no
underrun occurs, the output produced by `ResamplingSource::process` over `N`
blocks of `B` samples is an exact passthrough: output sample `i` on output
buffer `ch` equals input sample `i` of input channel `ch % channels` from the
ring buffer (interleaved index `channels * i + ch % channels`). -/
theorem c6_unity_ratio_passthrough (S cIn numOut N B W : ℕ) (data : ℕ → ℚ)
    (hS : 0 < S) (hc : 0 < min cIn 8) (hn : numOut ≠ 0) (hN : 1 ≤ N) (hB : 1 ≤ B)
    (hW : min cIn 8 * (N * B + 1) ≤ W) :
    (processNBlocks ⟨S, B⟩ numOut N (ResamplingSource.new ⟨data, 0, W⟩ cIn S)).2 =
      (List.range (N * B)).map (fun i => (List.range numOut).map fun ch =>
        data (min cIn 8 * i + ch % min cIn 8)) := by
  obtain ⟨B', rfl⟩ : ∃ B', B = B' + 1 := ⟨B - 1, by omega⟩
  obtain ⟨N', rfl⟩ : ∃ N', N = N' + 1 := ⟨N - 1, by omega⟩
  set c := min cIn 8 with hcdef
  have hSne : ((S : ℕ) : ℚ) ≠ 0 := Nat.cast_ne_zero.mpr hS.ne'
  have hW2 : 2 * c ≤ W := by
    refine le_trans ?_ hW
    have h1 : 1 ≤ (N' + 1) * (B' + 1) := Nat.one_le_iff_ne_zero.mpr (by positivity)
    calc 2 * c = c * 2 := by ring
      _ ≤ c * ((N' + 1) * (B' + 1) + 1) := Nat.mul_le_mul_left c (by omega)
  obtain ⟨p1, p2, p3, p4, p5, p6, p7, p8, p9⟩ := primeIfNeeded_new data W cIn S hW2
  have hstep : ResamplingSource.process ⟨S, B' + 1⟩ [] numOut
      (ResamplingSource.new ⟨data, 0, W⟩ cIn S) =
      processLoop 1 numOut (B' + 1)
        (primeIfNeeded (ResamplingSource.new ⟨data, 0, W⟩ cIn S)) := by
    rw [process_eq_processLoop _ _ _ hn]
    simp only []
    rw [show (ResamplingSource.new ⟨data, 0, W⟩ cIn S).inputSampleRate = S from rfl]
    rw [div_self hSne]
  have hb1 : c * (0 + 2 + B') ≤ W := by
    refine le_trans (Nat.mul_le_mul_left c ?_) hW
    have : B' + 1 ≤ (N' + 1) * (B' + 1) := Nat.le_mul_of_pos_left _ (by omega)
    omega
  obtain ⟨q1, q2, q3, q4, q5, q6, q7, q8, q9, q10, q11⟩ :=
    processLoop_unit_start numOut c W data hc B'
      (primeIfNeeded (ResamplingSource.new ⟨data, 0, W⟩ cIn S)) 0
      p2 p4 p5 p6 (by rw [p7]; ring) (by intro j; exact p8 j)
      (by intro j; simpa using p9 j) hb1
  have hb2 : c * (B' + 2 + N' * (B' + 1)) ≤ W := by
    rw [show B' + 2 + N' * (B' + 1) = (N' + 1) * (B' + 1) + 1 from by ring]
    exact hW
  obtain ⟨r1, _, _, _, _, _, _, _, _, _⟩ :=
    processNBlocks_unit S (B' + 1) numOut c W data hS hc hn N'
      ((processLoop 1 numOut (B' + 1)
        (primeIfNeeded (ResamplingSource.new ⟨data, 0, W⟩ cIn S))).1) B'
      (q5.trans p1) (q6.trans p3) q4 q3 q7 q8
      (by rw [q9, show 0 + 2 + B' = B' + 2 from by omega])
      (by intro j; simpa using q10 j)
      (by intro j; rw [q11 j, show 0 + 1 + B' = B' + 1 from by omega])
      hb2
  have q2' : (processLoop 1 numOut (B' + 1)
      (primeIfNeeded (ResamplingSource.new ⟨data, 0, W⟩ cIn S))).2.1 =
      (List.range (B' + 1)).map (fun i => (List.range numOut).map fun ch =>
        data (c * i + ch % c)) := by
    rw [q2]
    apply List.map_congr_left
    intro i _
    simp
  simp only [processNBlocks]
  rw [hstep, q2', r1]
  rw [show (N' + 1) * (B' + 1) = (B' + 1) + N' * (B' + 1) from by ring]
  conv_rhs => rw [List.range_add, List.map_append]
  congr 1
  rw [List.map_map]
  apply List.map_congr_left
  intro i _
  simp only [Function.comp_apply]

theorem processLoop_pres (r : ℚ) (numOut : ℕ) :
    ∀ (n : ℕ) (s : ResamplingSource),
      (processLoop r numOut n s).1.channels = s.channels ∧
        (processLoop r numOut n s).1.primed = s.primed ∧
        (processLoop r numOut n s).1.inputSampleRate = s.inputSampleRate ∧
        (processLoop r numOut n s).1.consumer.data = s.consumer.data ∧
        (processLoop r numOut n s).1.consumer.writeIdx = s.consumer.writeIdx := by
  intro n
  induction n with
  | zero => intro s; exact ⟨rfl, rfl, rfl, rfl, rfl⟩
  | succ n ih =>
    intro s
    have hA := advanceLoop_pres (Int.toNat ⌈s.position⌉) s
    cases hflag : (advanceLoop (Int.toNat ⌈s.position⌉) s).2
    · rw [processLoop_succ_of_advance r numOut n s _ (by rw [← hflag])]
      have h2 := ih { (advanceLoop (Int.toNat ⌈s.position⌉) s).1 with
        position := (advanceLoop (Int.toNat ⌈s.position⌉) s).1.position + r }
      exact ⟨h2.1.trans hA.1, h2.2.1.trans hA.2.1, h2.2.2.1.trans hA.2.2.1,
        h2.2.2.2.1.trans hA.2.2.2.1, h2.2.2.2.2.trans hA.2.2.2.2⟩
    · rw [processLoop_succ_underrun r numOut n s _ (by rw [← hflag])]
      exact hA

theorem processLoop_split (r : ℚ) (numOut : ℕ) :
    ∀ (a b : ℕ) (s : ResamplingSource),
      (processLoop r numOut a s).2.2 = false →
      processLoop r numOut (a + b) s =
        ((processLoop r numOut b (processLoop r numOut a s).1).1,
          (processLoop r numOut a s).2.1 ++
            (processLoop r numOut b (processLoop r numOut a s).1).2.1,
          (processLoop r numOut b (processLoop r numOut a s).1).2.2) := by
  intro a
  induction a with
  | zero =>
    intro b s _
    rw [Nat.zero_add]
    rfl
  | succ a ih =>
    intro b s hfl
    rcases hA : advanceLoop (Int.toNat ⌈s.position⌉) s with ⟨s1, fl⟩
    cases fl
    · have hfl' : (processLoop r numOut a
          { s1 with position := s1.position + r }).2.2 = false := by
        have h := hfl
        rw [processLoop_succ_of_advance r numOut a s s1 hA] at h
        exact h
      rw [show a + 1 + b = (a + b) + 1 from by omega,
        processLoop_succ_of_advance r numOut (a + b) s s1 hA,
        processLoop_succ_of_advance r numOut a s s1 hA,
        ih b _ hfl']
      rfl
    · exfalso
      rw [processLoop_succ_underrun r numOut a s s1 hA] at hfl
      simp at hfl

theorem processLoop_underrun_at (r : ℚ) (numOut i B : ℕ) (s : ResamplingSource)
    (hiB : i < B)
    (hfl : (processLoop r numOut i s).2.2 = false)
    (hu : (advanceLoop (Int.toNat ⌈(processLoop r numOut i s).1.position⌉)
        (processLoop r numOut i s).1).2 = true) :
    processLoop r numOut B s =
      ((advanceLoop (Int.toNat ⌈(processLoop r numOut i s).1.position⌉)
          (processLoop r numOut i s).1).1,
        (processLoop r numOut i s).2.1 ++
          List.replicate (B - i) (List.replicate numOut 0),
        true) := by
  obtain ⟨k, rfl⟩ : ∃ k, B = i + (k + 1) := ⟨B - i - 1, by omega⟩
  rw [show i + (k + 1) - i = k + 1 from by omega]
  rw [processLoop_split r numOut i (k + 1) s hfl]
  rw [processLoop_succ_underrun r numOut k ((processLoop r numOut i s).1) _
    (by rw [← hu])]

theorem c6_unity_ratio_passthrough_witness :
    0 < 48000 ∧ 0 < min 1 8 ∧ (1 : ℕ) ≠ 0 ∧ 1 ≤ 1 ∧ 1 ≤ 2 ∧
      min 1 8 * (1 * 2 + 1) ≤ 3 ∧
      (processNBlocks ⟨48000, 2⟩ 1 1
          (ResamplingSource.new ⟨fun n => (n : ℚ), 0, 3⟩ 1 48000)).2 =
        (List.range (1 * 2)).map (fun i => (List.range 1).map fun ch =>
          ((min 1 8 * i + ch % min 1 8 : ℕ) : ℚ)) :=
  ⟨by decide, by decide, by decide, by decide, by decide, by decide,
    c6_unity_ratio_passthrough 48000 1 1 1 2 3 (fun n => (n : ℚ))
      (by decide) (by decide) (by decide) (by decide) (by decide) (by decide)⟩

/-- A primed one-channel resampler at position 1 whose ring buffer is already
drained (readIdx = writeIdx = 2): the very next frame read underruns. -/
def sC5 : ResamplingSource :=
  ⟨⟨fun n => (n : ℚ), 2, 2⟩, 1, 48000, 1, fun _ => 0, fun _ => 0, true⟩

/-- C5: if, during a `process` call on a primed resampler, the ring buffer is
found empty while reading an input frame at output index `i` (the advance
loop at column `i` reports an underrun after `i` clean columns), the call
emits the interpolated columns for indices below `i`, writes silence to every
remaining index in `[i, B)` of every output buffer, and returns with the
underrun flag; the failure is non-fatal: once the producer has refilled the
ring buffer (writeIdx advanced far enough), the next `process` call completes
with no underrun. -/
theorem c5_underrun_silence_and_recovery (S B numOut i W' : ℕ) (s : ResamplingSource)
    (hn : numOut ≠ 0) (hp : s.primed = true) (h0 : 0 ≤ s.position)
    (hc : 0 < s.channels) (hiB : i < B)
    (hfl : (processLoop ((s.inputSampleRate : ℚ) / (S : ℚ)) numOut i s).2.2 = false)
    (hu : (advanceLoop
        (Int.toNat ⌈(processLoop ((s.inputSampleRate : ℚ) / (S : ℚ)) numOut i s).1.position⌉)
        (processLoop ((s.inputSampleRate : ℚ) / (S : ℚ)) numOut i s).1).2 = true)
    (hW' : (advanceLoop
        (Int.toNat ⌈(processLoop ((s.inputSampleRate : ℚ) / (S : ℚ)) numOut i s).1.position⌉)
        (processLoop ((s.inputSampleRate : ℚ) / (S : ℚ)) numOut i s).1).1.consumer.readIdx +
        s.channels * loopReads ((s.inputSampleRate : ℚ) / (S : ℚ))
          (advanceLoop
            (Int.toNat ⌈(processLoop ((s.inputSampleRate : ℚ) / (S : ℚ)) numOut i s).1.position⌉)
            (processLoop ((s.inputSampleRate : ℚ) / (S : ℚ)) numOut i s).1).1.position B ≤ W') :
    ResamplingSource.process ⟨S, B⟩ [] numOut s =
      ((advanceLoop
          (Int.toNat ⌈(processLoop ((s.inputSampleRate : ℚ) / (S : ℚ)) numOut i s).1.position⌉)
          (processLoop ((s.inputSampleRate : ℚ) / (S : ℚ)) numOut i s).1).1,
        (processLoop ((s.inputSampleRate : ℚ) / (S : ℚ)) numOut i s).2.1 ++
          List.replicate (B - i) (List.replicate numOut 0),
        true) ∧
      (ResamplingSource.process ⟨S, B⟩ [] numOut
        (ResamplingSource.setWrite
          (advanceLoop
            (Int.toNat ⌈(processLoop ((s.inputSampleRate : ℚ) / (S : ℚ)) numOut i s).1.position⌉)
            (processLoop ((s.inputSampleRate : ℚ) / (S : ℚ)) numOut i s).1).1 W')).2.2 =
        false := by
  set r := (s.inputSampleRate : ℚ) / (S : ℚ) with hrdef
  set sp := (processLoop r numOut i s).1 with hspdef
  set su := (advanceLoop (Int.toNat ⌈sp.position⌉) sp).1 with hsudef
  have hr : 0 ≤ r := by rw [hrdef]; positivity
  have hpresP := processLoop_pres r numOut i s
  have hpresA := advanceLoop_pres (Int.toNat ⌈sp.position⌉) sp
  have hchsu : su.channels = s.channels := hpresA.1.trans hpresP.1
  have hprsu : su.primed = true := (hpresA.2.1.trans hpresP.2.1).trans hp
  have hirsu : su.inputSampleRate = s.inputSampleRate := hpresA.2.2.1.trans hpresP.2.2.1
  have hpossu : 0 ≤ su.position :=
    advanceLoop_pos_nonneg _ sp (processLoop_pos_nonneg r numOut hr i s h0)
  constructor
  · rw [process_eq_processLoop _ _ _ hn, primeIfNeeded_of_primed s hp]
    exact processLoop_underrun_at r numOut i B s hiB hfl hu
  · have hprW : (su.setWrite W').primed = true := hprsu
    have hirW : (su.setWrite W').inputSampleRate = s.inputSampleRate := hirsu
    have hposW : 0 ≤ (su.setWrite W').position := hpossu
    have hcW : 0 < (su.setWrite W').channels := by
      show 0 < su.channels
      rw [hchsu]
      exact hc
    have hdataW : (su.setWrite W').consumer.readIdx +
        (su.setWrite W').channels *
          loopReads r (su.setWrite W').position B ≤
        (su.setWrite W').consumer.writeIdx := by
      show su.consumer.readIdx + su.channels * loopReads r su.position B ≤ W'
      rw [hchsu]
      exact hW'
    rw [process_eq_processLoop _ _ _ hn, primeIfNeeded_of_primed _ hprW, hirW]
    exact (processLoop_spec r numOut hr B (su.setWrite W') hposW hcW hdataW).1

theorem c5_underrun_silence_and_recovery_witness :
    (1 : ℕ) ≠ 0 ∧ sC5.primed = true ∧ 0 ≤ sC5.position ∧ 0 < sC5.channels ∧ 0 < 4 ∧
      (processLoop ((sC5.inputSampleRate : ℚ) / ((48000 : ℕ) : ℚ)) 1 0 sC5).2.2 = false ∧
      (advanceLoop
        (Int.toNat
          ⌈(processLoop ((sC5.inputSampleRate : ℚ) / ((48000 : ℕ) : ℚ)) 1 0 sC5).1.position⌉)
        (processLoop ((sC5.inputSampleRate : ℚ) / ((48000 : ℕ) : ℚ)) 1 0 sC5).1).2 = true ∧
      (advanceLoop
          (Int.toNat
            ⌈(processLoop ((sC5.inputSampleRate : ℚ) / ((48000 : ℕ) : ℚ)) 1 0 sC5).1.position⌉)
          (processLoop ((sC5.inputSampleRate : ℚ) / ((48000 : ℕ) : ℚ)) 1 0 sC5).1).1.consumer.readIdx +
        sC5.channels * loopReads ((sC5.inputSampleRate : ℚ) / ((48000 : ℕ) : ℚ))
          (advanceLoop
            (Int.toNat
              ⌈(processLoop ((sC5.inputSampleRate : ℚ) / ((48000 : ℕ) : ℚ)) 1 0 sC5).1.position⌉)
            (processLoop ((sC5.inputSampleRate : ℚ) / ((48000 : ℕ) : ℚ)) 1 0 sC5).1).1.position 4 ≤
          5 ∧
      (ResamplingSource.process ⟨48000, 4⟩ [] 1 sC5 =
        ((advanceLoop
            (Int.toNat
              ⌈(processLoop ((sC5.inputSampleRate : ℚ) / ((48000 : ℕ) : ℚ)) 1 0 sC5).1.position⌉)
            (processLoop ((sC5.inputSampleRate : ℚ) / ((48000 : ℕ) : ℚ)) 1 0 sC5).1).1,
          (processLoop ((sC5.inputSampleRate : ℚ) / ((48000 : ℕ) : ℚ)) 1 0 sC5).2.1 ++
            List.replicate (4 - 0) (List.replicate 1 0),
          true) ∧
        (ResamplingSource.process ⟨48000, 4⟩ [] 1
          (ResamplingSource.setWrite
            (advanceLoop
              (Int.toNat
                ⌈(processLoop ((sC5.inputSampleRate : ℚ) / ((48000 : ℕ) : ℚ)) 1 0 sC5).1.position⌉)
              (processLoop ((sC5.inputSampleRate : ℚ) / ((48000 : ℕ) : ℚ)) 1 0 sC5).1).1 5)).2.2 =
          false) := by
  have h1 : (1 : ℕ) ≠ 0 := by decide
  have h2 : sC5.primed = true := rfl
  have h3 : 0 ≤ sC5.position := by norm_num [sC5]
  have h4 : 0 < sC5.channels := by norm_num [sC5]
  have h5 : (0 : ℕ) < 4 := by decide
  have h6 : (processLoop ((sC5.inputSampleRate : ℚ) / ((48000 : ℕ) : ℚ)) 1 0 sC5).2.2 =
      false := rfl
  have h7 : (advanceLoop
      (Int.toNat
        ⌈(processLoop ((sC5.inputSampleRate : ℚ) / ((48000 : ℕ) : ℚ)) 1 0 sC5).1.position⌉)
      (processLoop ((sC5.inputSampleRate : ℚ) / ((48000 : ℕ) : ℚ)) 1 0 sC5).1).2 = true := by
    norm_num [processLoop, sC5, advanceLoop, ResamplingSource.advance_frame,
      ResamplingSource.read_frame, readFrameGo, RingConsumer.pop]
  have h8 : (advanceLoop
      (Int.toNat
        ⌈(processLoop ((sC5.inputSampleRate : ℚ) / ((48000 : ℕ) : ℚ)) 1 0 sC5).1.position⌉)
      (processLoop ((sC5.inputSampleRate : ℚ) / ((48000 : ℕ) : ℚ)) 1 0 sC5).1).1.consumer.readIdx +
      sC5.channels * loopReads ((sC5.inputSampleRate : ℚ) / ((48000 : ℕ) : ℚ))
        (advanceLoop
          (Int.toNat
            ⌈(processLoop ((sC5.inputSampleRate : ℚ) / ((48000 : ℕ) : ℚ)) 1 0 sC5).1.position⌉)
          (processLoop ((sC5.inputSampleRate : ℚ) / ((48000 : ℕ) : ℚ)) 1 0 sC5).1).1.position 4 ≤
        5 := by
    norm_num [processLoop, sC5, advanceLoop, ResamplingSource.advance_frame,
      ResamplingSource.read_frame, readFrameGo, RingConsumer.pop, loopReads]
  exact ⟨h1, h2, h3, h4, h5, h6, h7, h8,
    c5_underrun_silence_and_recovery 48000 4 1 0 5 sC5 h1 h2 h3 h4 h5 h6 h7 h8⟩

end KlingtModel
